import Mathlib

/-!
# Verification of the swarmdb index structures

Shallow embedding of the content-addressed B-tree (`test/btree/btree.go`),
the 64-way hash-trie (`swarmdb/hashdb.go`) and the table dispatcher
(`swarmdb.go`), with theorems settling the claims of the natural-language
specification.

Conventions:
* Go byte slices become `List Nat` (each entry `< 256` where it matters);
  bounds-checked indexing that would panic in Go becomes `Option`.
* Go pointer mutation becomes explicit state passing; a Go method that both
  mutates its receiver and returns a value becomes a function returning the
  new state together with the returned value.
* The external chunk store becomes an association list from hashes to
  chunk payloads.
-/

set_option maxRecDepth 8000

namespace SwarmDB

/-! ## hashdb.go: `hashbin`

Go source (hashdb.go:68-81):
```
func hashbin(k [32]byte, level int) int {
    x := 0x3F
    bytepos := level * 6 / 8
    bitpos := level * 6 % 8
    var fb int
    if bitpos <= 2 {
        fb = int(k[bytepos]) >> uint(2-bitpos)
    } else {
        fb = int(k[bytepos]) << uint(bitpos-2)
        fb = fb + (int(k[bytepos+1]) >> uint(8-(6-(8-bitpos))))
    }
    fb = fb & x
    return fb
}
```
An access `k[bytepos]` past the end of the 32-byte digest panics in Go;
here it yields `none`. -/
def hashbin (k : List Nat) (level : Nat) : Option Nat :=
  let x := 0x3F
  let bytepos := level * 6 / 8
  let bitpos := level * 6 % 8
  if bitpos ≤ 2 then
    match k.get? bytepos with
    | some b => some ((b >>> (2 - bitpos)) &&& x)
    | none => none
  else
    match k.get? bytepos, k.get? (bytepos + 1) with
    | some b0, some b1 =>
        some (((b0 <<< (bitpos - 2)) + (b1 >>> (8 - (6 - (8 - bitpos))))) &&& x)
    | _, _ => none

/-- Spec reading: bit `i` of a digest, most-significant-bit first inside
each byte (bit 0 is the top bit of byte 0). -/
def digestBit (k : List Nat) (i : Nat) : Nat :=
  (k.getD (i / 8) 0 >>> (7 - i % 8)) &&& 1

/-- Spec reading: the integer formed by bits `[6d, 6d+6)` of the digest,
most-significant-bit first. -/
def slotSpec (k : List Nat) (d : Nat) : Nat :=
  32 * digestBit k (6 * d) + 16 * digestBit k (6 * d + 1) +
    8 * digestBit k (6 * d + 2) + 4 * digestBit k (6 * d + 3) +
    2 * digestBit k (6 * d + 4) + digestBit k (6 * d + 5)

theorem nat_and_63 (n : Nat) : n &&& 63 = n % 64 := by
  have h := Nat.and_pow_two_sub_one_eq_mod n 6
  norm_num at h
  exact h

theorem nat_and_1 (n : Nat) : n &&& 1 = n % 2 := by
  simp

/-- C9 (amended: `0 ≤ d ≤ 41` instead of `0 ≤ d ≤ 42`): for every 32-byte
digest `k` and trie depth `d ≤ 41`, `hashbin k d` reads only bytes within
the digest (it returns `some`, never the out-of-range `none`) and returns
exactly the integer formed by bits `[6d, 6d+6)` of the digest,
most-significant-bit first, a value in `[0, 64)`.  The four proof cases
follow `6d mod 8 ∈ {0, 2, 4, 6}`. -/
theorem c9_hashbin_extracts_digest_bits (k : List Nat) (hlen : k.length = 32)
    (hbyte : ∀ b ∈ k, b < 256) (d : Nat) (hd : d ≤ 41) :
    hashbin k d = some (slotSpec k d) ∧ slotSpec k d < 64 := by
  have hd4 : d % 4 = 0 ∨ d % 4 = 1 ∨ d % 4 = 2 ∨ d % 4 = 3 := by omega
  rcases hd4 with hd4 | hd4 | hd4 | hd4
  · -- 6d mod 8 = 0: the six bits are the top bits of byte 6d/8
    have hr : d * 6 % 8 = 0 := by omega
    have hp1 : d * 6 / 8 < 32 := by omega
    cases hb0 : k.get? (d * 6 / 8) with
    | none => rw [List.get?_eq_none] at hb0; omega
    | some b0 =>
    have hlt0 : b0 < 256 := hbyte b0 (List.get?_mem hb0)
    have e0 : k.getD (6 * d / 8) 0 = b0 := by
      rw [List.getD_eq_getElem?_getD, show 6 * d / 8 = d * 6 / 8 by ring_nf,
        ← List.get?_eq_getElem?, hb0]; rfl
    simp only [hashbin, slotSpec, digestBit, hr]
    rw [show (6 * d + 1) / 8 = 6 * d / 8 from by omega,
        show (6 * d + 2) / 8 = 6 * d / 8 from by omega,
        show (6 * d + 3) / 8 = 6 * d / 8 from by omega,
        show (6 * d + 4) / 8 = 6 * d / 8 from by omega,
        show (6 * d + 5) / 8 = 6 * d / 8 from by omega,
        show (6 * d) % 8 = 0 from by omega,
        show (6 * d + 1) % 8 = 1 from by omega,
        show (6 * d + 2) % 8 = 2 from by omega,
        show (6 * d + 3) % 8 = 3 from by omega,
        show (6 * d + 4) % 8 = 4 from by omega,
        show (6 * d + 5) % 8 = 5 from by omega]
    rw [e0]
    norm_num
    rw [List.get?_eq_getElem?] at hb0
    rw [hb0]
    simp only [Nat.shiftRight_eq_div_pow, Nat.shiftLeft_eq, nat_and_63, nat_and_1]
    norm_num
    omega
  · -- 6d mod 8 = 6: two top bits of byte 6d/8, four top bits of the next
    have hr : d * 6 % 8 = 6 := by omega
    have hp1 : d * 6 / 8 + 1 < 32 := by omega
    cases hb0 : k.get? (d * 6 / 8) with
    | none => rw [List.get?_eq_none] at hb0; omega
    | some b0 =>
    cases hb1 : k.get? (d * 6 / 8 + 1) with
    | none => rw [List.get?_eq_none] at hb1; omega
    | some b1 =>
    have hlt0 : b0 < 256 := hbyte b0 (List.get?_mem hb0)
    have hlt1 : b1 < 256 := hbyte b1 (List.get?_mem hb1)
    have e0 : k.getD (6 * d / 8) 0 = b0 := by
      rw [List.getD_eq_getElem?_getD, show 6 * d / 8 = d * 6 / 8 by ring_nf,
        ← List.get?_eq_getElem?, hb0]; rfl
    have e1 : k.getD (6 * d / 8 + 1) 0 = b1 := by
      rw [List.getD_eq_getElem?_getD, show 6 * d / 8 + 1 = d * 6 / 8 + 1 by ring_nf,
        ← List.get?_eq_getElem?, hb1]; rfl
    simp only [hashbin, slotSpec, digestBit, hr]
    rw [show (6 * d + 1) / 8 = 6 * d / 8 from by omega,
        show (6 * d + 2) / 8 = 6 * d / 8 + 1 from by omega,
        show (6 * d + 3) / 8 = 6 * d / 8 + 1 from by omega,
        show (6 * d + 4) / 8 = 6 * d / 8 + 1 from by omega,
        show (6 * d + 5) / 8 = 6 * d / 8 + 1 from by omega,
        show (6 * d) % 8 = 6 from by omega,
        show (6 * d + 1) % 8 = 7 from by omega,
        show (6 * d + 2) % 8 = 0 from by omega,
        show (6 * d + 3) % 8 = 1 from by omega,
        show (6 * d + 4) % 8 = 2 from by omega,
        show (6 * d + 5) % 8 = 3 from by omega]
    rw [e0, e1]
    norm_num
    rw [List.get?_eq_getElem?] at hb0 hb1
    rw [hb0, hb1]
    simp only [Nat.shiftRight_eq_div_pow, Nat.shiftLeft_eq, nat_and_63, nat_and_1]
    norm_num
    omega
  · -- 6d mod 8 = 4: four low bits of byte 6d/8, two top bits of the next
    have hr : d * 6 % 8 = 4 := by omega
    have hp1 : d * 6 / 8 + 1 < 32 := by omega
    cases hb0 : k.get? (d * 6 / 8) with
    | none => rw [List.get?_eq_none] at hb0; omega
    | some b0 =>
    cases hb1 : k.get? (d * 6 / 8 + 1) with
    | none => rw [List.get?_eq_none] at hb1; omega
    | some b1 =>
    have hlt0 : b0 < 256 := hbyte b0 (List.get?_mem hb0)
    have hlt1 : b1 < 256 := hbyte b1 (List.get?_mem hb1)
    have e0 : k.getD (6 * d / 8) 0 = b0 := by
      rw [List.getD_eq_getElem?_getD, show 6 * d / 8 = d * 6 / 8 by ring_nf,
        ← List.get?_eq_getElem?, hb0]; rfl
    have e1 : k.getD (6 * d / 8 + 1) 0 = b1 := by
      rw [List.getD_eq_getElem?_getD, show 6 * d / 8 + 1 = d * 6 / 8 + 1 by ring_nf,
        ← List.get?_eq_getElem?, hb1]; rfl
    simp only [hashbin, slotSpec, digestBit, hr]
    rw [show (6 * d + 1) / 8 = 6 * d / 8 from by omega,
        show (6 * d + 2) / 8 = 6 * d / 8 from by omega,
        show (6 * d + 3) / 8 = 6 * d / 8 from by omega,
        show (6 * d + 4) / 8 = 6 * d / 8 + 1 from by omega,
        show (6 * d + 5) / 8 = 6 * d / 8 + 1 from by omega,
        show (6 * d) % 8 = 4 from by omega,
        show (6 * d + 1) % 8 = 5 from by omega,
        show (6 * d + 2) % 8 = 6 from by omega,
        show (6 * d + 3) % 8 = 7 from by omega,
        show (6 * d + 4) % 8 = 0 from by omega,
        show (6 * d + 5) % 8 = 1 from by omega]
    rw [e0, e1]
    norm_num
    rw [List.get?_eq_getElem?] at hb0 hb1
    rw [hb0, hb1]
    simp only [Nat.shiftRight_eq_div_pow, Nat.shiftLeft_eq, nat_and_63, nat_and_1]
    norm_num
    omega
  · -- 6d mod 8 = 2: bits 2..7 of byte 6d/8
    have hr : d * 6 % 8 = 2 := by omega
    have hp1 : d * 6 / 8 < 32 := by omega
    cases hb0 : k.get? (d * 6 / 8) with
    | none => rw [List.get?_eq_none] at hb0; omega
    | some b0 =>
    have hlt0 : b0 < 256 := hbyte b0 (List.get?_mem hb0)
    have e0 : k.getD (6 * d / 8) 0 = b0 := by
      rw [List.getD_eq_getElem?_getD, show 6 * d / 8 = d * 6 / 8 by ring_nf,
        ← List.get?_eq_getElem?, hb0]; rfl
    simp only [hashbin, slotSpec, digestBit, hr]
    rw [show (6 * d + 1) / 8 = 6 * d / 8 from by omega,
        show (6 * d + 2) / 8 = 6 * d / 8 from by omega,
        show (6 * d + 3) / 8 = 6 * d / 8 from by omega,
        show (6 * d + 4) / 8 = 6 * d / 8 from by omega,
        show (6 * d + 5) / 8 = 6 * d / 8 from by omega,
        show (6 * d) % 8 = 2 from by omega,
        show (6 * d + 1) % 8 = 3 from by omega,
        show (6 * d + 2) % 8 = 4 from by omega,
        show (6 * d + 3) % 8 = 5 from by omega,
        show (6 * d + 4) % 8 = 6 from by omega,
        show (6 * d + 5) % 8 = 7 from by omega]
    rw [e0]
    norm_num
    rw [List.get?_eq_getElem?] at hb0
    rw [hb0]
    simp only [Nat.shiftRight_eq_div_pow, Nat.shiftLeft_eq, nat_and_63, nat_and_1]
    norm_num
    omega

/-- C9 witness: the amended theorem applied to the all-zero digest at the
deepest in-range depth 41. -/
theorem c9_hashbin_witness :
    hashbin (List.replicate 32 0) 41 = some (slotSpec (List.replicate 32 0) 41)
      ∧ slotSpec (List.replicate 32 0) 41 < 64 :=
  c9_hashbin_extracts_digest_bits (List.replicate 32 0) (by decide)
    (by decide) 41 (by norm_num)

/-- C9 counterexample: at depth 42 — allowed by the claim's bound
`0 ≤ d ≤ 42` — `hashbin` computes `bytepos = 31`, `bitpos = 4` and reads
`k[32]`, one past the end of the 32-byte digest (an index-out-of-range
panic in Go, `none` here), so it does not return the claimed bit slice. -/
theorem c9_hashbin_counterexample :
    hashbin (List.replicate 32 0) 42 = none
      ∧ hashbin (List.replicate 32 0) 42
          ≠ some (slotSpec (List.replicate 32 0) 42) := by
  constructor
  · rfl
  · decide

/-! ## Keccak-256

`hashdb.go` computes `keyhash(k) = sha3.Sum256(k)` via go-ethereum's
`crypto/sha3`, a library outside this repository.  Modelled from the spec:
"the 256-bit digest of the lookup key" is Keccak-256 (go-ethereum's legacy
SHA3 with multi-rate padding byte 0x01).  The round function is unrolled;
lane `x + 5y` of the 5x5 state is list element `x + 5y`.  Fidelity to the
published function is witnessed by the test vectors below. -/

def lmask : Nat := 0xFFFFFFFFFFFFFFFF

def rotl (x n : Nat) : Nat := ((x <<< n) ||| (x >>> (64 - n))) &&& lmask

def keccakRound (rc : Nat) (A : List Nat) : List Nat :=
  match A with
  | [a0, a1, a2, a3, a4, a5, a6, a7, a8, a9, a10, a11, a12, a13, a14, a15, a16, a17, a18, a19, a20, a21, a22, a23, a24] =>
    let c0 := a0 ^^^ a5 ^^^ a10 ^^^ a15 ^^^ a20
    let c1 := a1 ^^^ a6 ^^^ a11 ^^^ a16 ^^^ a21
    let c2 := a2 ^^^ a7 ^^^ a12 ^^^ a17 ^^^ a22
    let c3 := a3 ^^^ a8 ^^^ a13 ^^^ a18 ^^^ a23
    let c4 := a4 ^^^ a9 ^^^ a14 ^^^ a19 ^^^ a24
    let d0 := c4 ^^^ rotl c1 1
    let d1 := c0 ^^^ rotl c2 1
    let d2 := c1 ^^^ rotl c3 1
    let d3 := c2 ^^^ rotl c4 1
    let d4 := c3 ^^^ rotl c0 1
    let t0 := a0 ^^^ d0
    let t1 := a1 ^^^ d1
    let t2 := a2 ^^^ d2
    let t3 := a3 ^^^ d3
    let t4 := a4 ^^^ d4
    let t5 := a5 ^^^ d0
    let t6 := a6 ^^^ d1
    let t7 := a7 ^^^ d2
    let t8 := a8 ^^^ d3
    let t9 := a9 ^^^ d4
    let t10 := a10 ^^^ d0
    let t11 := a11 ^^^ d1
    let t12 := a12 ^^^ d2
    let t13 := a13 ^^^ d3
    let t14 := a14 ^^^ d4
    let t15 := a15 ^^^ d0
    let t16 := a16 ^^^ d1
    let t17 := a17 ^^^ d2
    let t18 := a18 ^^^ d3
    let t19 := a19 ^^^ d4
    let t20 := a20 ^^^ d0
    let t21 := a21 ^^^ d1
    let t22 := a22 ^^^ d2
    let t23 := a23 ^^^ d3
    let t24 := a24 ^^^ d4
    let b0 := t0
    let b1 := rotl t6 44
    let b2 := rotl t12 43
    let b3 := rotl t18 21
    let b4 := rotl t24 14
    let b5 := rotl t3 28
    let b6 := rotl t9 20
    let b7 := rotl t10 3
    let b8 := rotl t16 45
    let b9 := rotl t22 61
    let b10 := rotl t1 1
    let b11 := rotl t7 6
    let b12 := rotl t13 25
    let b13 := rotl t19 8
    let b14 := rotl t20 18
    let b15 := rotl t4 27
    let b16 := rotl t5 36
    let b17 := rotl t11 10
    let b18 := rotl t17 15
    let b19 := rotl t23 56
    let b20 := rotl t2 62
    let b21 := rotl t8 55
    let b22 := rotl t14 39
    let b23 := rotl t15 41
    let b24 := rotl t21 2
    let e0 := (b0 ^^^ ((lmask ^^^ b1) &&& b2)) ^^^ rc
    let e1 := b1 ^^^ ((lmask ^^^ b2) &&& b3)
    let e2 := b2 ^^^ ((lmask ^^^ b3) &&& b4)
    let e3 := b3 ^^^ ((lmask ^^^ b4) &&& b0)
    let e4 := b4 ^^^ ((lmask ^^^ b0) &&& b1)
    let e5 := b5 ^^^ ((lmask ^^^ b6) &&& b7)
    let e6 := b6 ^^^ ((lmask ^^^ b7) &&& b8)
    let e7 := b7 ^^^ ((lmask ^^^ b8) &&& b9)
    let e8 := b8 ^^^ ((lmask ^^^ b9) &&& b5)
    let e9 := b9 ^^^ ((lmask ^^^ b5) &&& b6)
    let e10 := b10 ^^^ ((lmask ^^^ b11) &&& b12)
    let e11 := b11 ^^^ ((lmask ^^^ b12) &&& b13)
    let e12 := b12 ^^^ ((lmask ^^^ b13) &&& b14)
    let e13 := b13 ^^^ ((lmask ^^^ b14) &&& b10)
    let e14 := b14 ^^^ ((lmask ^^^ b10) &&& b11)
    let e15 := b15 ^^^ ((lmask ^^^ b16) &&& b17)
    let e16 := b16 ^^^ ((lmask ^^^ b17) &&& b18)
    let e17 := b17 ^^^ ((lmask ^^^ b18) &&& b19)
    let e18 := b18 ^^^ ((lmask ^^^ b19) &&& b15)
    let e19 := b19 ^^^ ((lmask ^^^ b15) &&& b16)
    let e20 := b20 ^^^ ((lmask ^^^ b21) &&& b22)
    let e21 := b21 ^^^ ((lmask ^^^ b22) &&& b23)
    let e22 := b22 ^^^ ((lmask ^^^ b23) &&& b24)
    let e23 := b23 ^^^ ((lmask ^^^ b24) &&& b20)
    let e24 := b24 ^^^ ((lmask ^^^ b20) &&& b21)
    [e0, e1, e2, e3, e4, e5, e6, e7, e8, e9, e10, e11, e12, e13, e14, e15, e16, e17, e18, e19, e20, e21, e22, e23, e24]
  | _ => A

def roundConstants : List Nat :=
  [1, 32898, 9223372036854808714, 9223372039002292224, 32907, 2147483649,
   9223372039002292353, 9223372036854808585, 138, 136, 2147516425,
   2147483658, 2147516555, 9223372036854775947, 9223372036854808713,
   9223372036854808579, 9223372036854808578, 9223372036854775936, 32778,
   9223372039002259466, 9223372039002292353, 9223372036854808704,
   2147483649, 9223372039002292232]

def keccakF (A : List Nat) : List Nat :=
  roundConstants.foldl (fun s rc => keccakRound rc s) A

def leLane (bytes : List Nat) : Nat :=
  bytes.foldr (fun b a => a * 256 + b) 0

def laneBytes (x : Nat) : List Nat :=
  (List.range 8).map fun i => (x >>> (8 * i)) &&& 255

def absorbBlock (A : List Nat) (block : List Nat) : List Nat :=
  keccakF ((List.range 25).map fun j =>
    if j < 17 then A.getD j 0 ^^^ leLane ((block.drop (8 * j)).take 8) else A.getD j 0)

def keccakPad (msg : List Nat) : List Nat :=
  let q := 136 - msg.length % 136
  if q = 1 then msg ++ [0x81]
  else msg ++ [0x01] ++ List.replicate (q - 2) 0 ++ [0x80]

def split136 : Nat → List Nat → List (List Nat)
  | 0, _ => []
  | _, [] => []
  | f + 1, l => l.take 136 :: split136 f (l.drop 136)

def keccak256 (msg : List Nat) : List Nat :=
  let padded := keccakPad msg
  let final := (split136 (padded.length + 1) padded).foldl absorbBlock (List.replicate 25 0)
  ((final.take 4).map laneBytes).flatten

/-- Published Keccak-256 test vector for "abc" (0x61 0x62 0x63). -/
theorem keccak256_abc : keccak256 [0x61, 0x62, 0x63] =
    [0x4e, 0x03, 0x65, 0x7a, 0xea, 0x45, 0xa9, 0x4f, 0xc7, 0xd4, 0x7b, 0xa8,
     0x26, 0xc8, 0xd6, 0x67, 0xc0, 0xd1, 0xe6, 0xe3, 0x3a, 0x64, 0xa0, 0x36,
     0xec, 0x44, 0xf5, 0x8f, 0xa1, 0x2d, 0x6c, 0x45] := by decide

/-- Keccak-256 of the empty string: the well-known Ethereum constant. -/
theorem keccak256_empty : keccak256 [] =
    [0xc5, 0xd2, 0x46, 0x01, 0x86, 0xf7, 0x23, 0x3c, 0x92, 0x7e, 0x7d, 0xb2,
     0xdc, 0xc7, 0x03, 0xc0, 0xe5, 0x00, 0xb6, 0x53, 0xca, 0x82, 0x27, 0x3b,
     0x7b, 0xfa, 0xd8, 0x04, 0x5d, 0x85, 0xa4, 0x70] := by decide

/-- hashdb.go:64-66: `keyhash(k) = sha3.Sum256(k)`. -/
def keyhash (k : List Nat) : List Nat := keccak256 k

/-- `hashbin` as used by the trie: every in-memory trie this development
evaluates has depth far below 42, so the out-of-range case is unreachable
and is defaulted to slot 0. -/
def hashbinD (k : List Nat) (level : Nat) : Nat := (hashbin k level).getD 0

/-! ## hashdb.go: the in-memory 64-way hash trie

Direct translation of `Node` and its methods.  Fields `NodeKey`,
`NodeHash`, `Version`, `Stored` and `Loaded` only serve chunk-store
bookkeeping and are elided: the claims below concern the logical content
of the in-memory trie, so every node is treated as loaded (`load` is the
identity on an in-memory node).  Go's nil pointer in a `Bin` slot is
`none`; a method that both mutates its receiver and returns a node
becomes a function from the old node to the new one.

Go recursion over the trie descends one digest level per call and so is
bounded by the digest length; the Lean translation makes that bound an
explicit fuel argument (`hFuel = 64`, comfortably above the 43 levels a
256-bit digest admits), with the fuel-out branch unreachable in every
theorem below. -/

inductive HNode where
  | mk (key : List Nat) (value : Option (List Nat)) (next : Bool) (root : Bool)
       (bin : List (Option HNode)) (level : Nat)

def HNode.key : HNode → List Nat
  | .mk k _ _ _ _ _ => k

def HNode.value : HNode → Option (List Nat)
  | .mk _ v _ _ _ _ => v

def HNode.next : HNode → Bool
  | .mk _ _ n _ _ _ => n

def HNode.isRoot : HNode → Bool
  | .mk _ _ _ r _ _ => r

def HNode.bin : HNode → List (Option HNode)
  | .mk _ _ _ _ b _ => b

def HNode.level : HNode → Nat
  | .mk _ _ _ _ _ l => l

def HNode.withLevel : HNode → Nat → HNode
  | .mk k v n r b _, l => .mk k v n r b l

/-- hashdb.go:83-99 `NewNode`: fresh leaf-shaped node at level 0 with 64
empty slots. -/
def newNode (k : List Nat) (v : Option (List Nat)) : HNode :=
  .mk k v false false (List.replicate 64 none) 0

/-- hashdb.go:49-62 `NewHashDB` with `rootnode = nil`: a `NewNode` marked
as root. -/
def emptyRoot : HNode :=
  .mk [] none false true (List.replicate 64 none) 0

def hFuel : Nat := 64

/-- hashdb.go:157-258 `Node.add` (storage calls elided).  Branches, in
source order: interior (`Next || Root`) descends into a non-empty slot or
installs the new leaf at `level+1`; a leaf with the same key returns
itself *unchanged* (the assignment of the new value is missing in the
source); an empty-key leaf is replaced by the new leaf; otherwise the
source builds a replacement interior node `n`, but its `return n` is
commented out, so only the level bump `cself.Level = self.Level + 1`
(aliasing `self`) survives and the original leaf is returned. -/
def addRec : Nat → HNode → HNode → HNode
  | 0, self, _ => self
  | fuel + 1, .mk key value next root bin level, addnode =>
    let b := hashbinD (keyhash addnode.key) level
    if next || root then
      match bin.getD b none with
      | some child =>
          .mk key value next root (bin.set b (some (addRec fuel child addnode))) level
      | none =>
          .mk key value next root (bin.set b (some (addnode.withLevel (level + 1)))) level
    else
      if key = addnode.key then .mk key value next root bin level
      else if key.length = 0 then addnode
      else .mk key value next root bin (level + 1)

/-- hashdb.go:140-143 `HashDB.Put` via hashdb.go:149-155 `Node.Add`: the
root node is updated in place (its own `add` return value is the mutated
root). `Put` always returns `(true, nil)`: it has no error path. -/
def hdbPut (root : HNode) (k v : List Nat) : HNode :=
  addRec hFuel root (newNode k (some v))

/-- `bytes.Trim(x, "\x00")`: strip zero bytes from both ends. -/
def trimZeros (l : List Nat) : List Nat :=
  ((l.dropWhile (fun b => b = 0)).reverse.dropWhile (fun b => b = 0)).reverse

/-- The Go `Val` interface value returned by `Node.Get`: nil, a byte
slice, or the error object built for a key mismatch. -/
inductive GoVal where
  | vnil
  | vbytes (b : List Nat)
  | verr
deriving DecidableEq

/-- hashdb.go:329-358 `Node.Get`: descend by slot; an empty slot yields
nil; a leaf yields its value when `compareVal` (zero-trimmed comparison,
hashdb.go:260-276) matches, and otherwise returns an *error object* in
place of a value. -/
def nodeGet : Nat → HNode → List Nat → GoVal
  | 0, _, _ => .vnil
  | fuel + 1, .mk _ _ _ _ bin level, k =>
    let b := hashbinD (keyhash k) level
    match bin.getD b none with
    | none => .vnil
    | some child =>
      if child.next then nodeGet fuel child k
      else if trimZeros k = trimZeros child.key then
        match child.value with
        | some v => .vbytes v
        | none => .vnil
      else .verr

/-- hashdb.go:317-327 `HashDB.Get`: wraps `Node.Get`.  The pair is
`(convertToByte ret, b)`: a nil result gives `(none, false)`; a mismatch
error object is *not* nil, so `b` stays `true` while `convertToByte`
turns it into nil bytes — `(none, true)`. -/
def hdbGet (root : HNode) (k : List Nat) : Option (List Nat) × Bool :=
  match nodeGet hFuel root k with
  | .vnil => (none, false)
  | .vbytes v => (some v, true)
  | .verr => (none, true)

/-- hashdb.go:412-420 `HashDB.Insert`: duplicate-key error iff
`res != nil || b` after `Get`. -/
def hdbInsert (root : HNode) (k v : List Nat) : Except Unit HNode :=
  if ((hdbGet root k).1.isSome || (hdbGet root k).2) then .error ()
  else .ok (hdbPut root k v)

/-- Observer: did `Insert` report the duplicate-key error? -/
def insertRejected : Except Unit HNode → Bool
  | .error _ => true
  | .ok _ => false

/-- hashdb.go:427-472 `Node.Delete`, as the value the caller's slot
receives: an empty slot returns Go nil (`none`) — even though nothing was
deleted; descending into an interior child stores the recursive result
and pulls up a lone remaining non-interior child; a leaf child is nulled
without any key comparison, pulling up a lone remaining sibling. -/
def nodeDelete : Nat → HNode → List Nat → Option HNode
  | 0, self, _ => some self
  | fuel + 1, .mk key value next root bin level, k =>
    let b := hashbinD (keyhash k) level
    match bin.getD b none with
    | none => none
    | some child =>
      if child.next then
        let bin2 := bin.set b (nodeDelete fuel child k)
        match bin2.filterMap id with
        | [c] => if c.next = false then some c else some (.mk key value next root bin2 level)
        | _ => some (.mk key value next root bin2 level)
      else
        let bin2 := bin.set b none
        match bin2.filterMap id with
        | [c] => some c
        | _ => some (.mk key value next root bin2 level)

/-- hashdb.go:422-425 `HashDB.Delete`: calls `rootnode.Delete(k)` and
discards its return value, so only the slot assignments performed on the
root object itself persist: an empty slot leaves the root untouched, an
interior child's slot receives the recursive result, a leaf child's slot
is nulled. -/
def hdbDelete (self : HNode) (k : List Nat) : HNode :=
  match self with
  | .mk key value next root bin level =>
    let b := hashbinD (keyhash k) level
    match bin.getD b none with
    | none => .mk key value next root bin level
    | some child =>
      if child.next then .mk key value next root (bin.set b (nodeDelete hFuel child k)) level
      else .mk key value next root (bin.set b none) level

/-- The keys held by the trie's leaves. -/
def trieKeys : Nat → HNode → List (List Nat)
  | 0, _ => []
  | fuel + 1, .mk key _ next root bin _ =>
    if next || root then (bin.filterMap id).flatMap (trieKeys fuel)
    else [key]

/-- Number of leaves in the trie. -/
def leafCount : Nat → HNode → Nat
  | 0, _ => 0
  | fuel + 1, .mk _ _ next root bin _ =>
    if next || root then ((bin.filterMap id).map (leafCount fuel)).sum
    else 1

/-- Trie states reachable from the empty trie by `Put` and `Delete`. -/
inductive Reachable : HNode → Prop where
  | empty : Reachable emptyRoot
  | put (k v : List Nat) {s : HNode} : Reachable s → Reachable (hdbPut s k v)
  | delete (k : List Nat) {s : HNode} : Reachable s → Reachable (hdbDelete s k)

/-- "alice" in UTF-8. -/
def keyAlice : List Nat := [0x61, 0x6c, 0x69, 0x63, 0x65]

/-- "A". -/
def keyA : List Nat := [0x41]

/-- "C".  The Keccak-256 digests of "A" and "C" both have their top six
bits zero, so the two distinct keys collide in root slot 0 of the trie. -/
def keyC : List Nat := [0x43]

/-- Both digests land in root slot 0. -/
theorem keyA_keyC_collide :
    hashbinD (keyhash keyA) 0 = 0 ∧ hashbinD (keyhash keyC) 0 = 0 ∧ keyA ≠ keyC := by
  decide

theorem filterMap_id_replicate_none (n : Nat) :
    (List.replicate n (none : Option HNode)).filterMap id = [] := by
  induction n with
  | zero => rfl
  | succ n ih => simp [List.replicate_succ, ih]

theorem getD_none_some_mem {l : List (Option HNode)} {n : Nat} {x : HNode}
    (h : l.getD n none = some x) : some x ∈ l := by
  rw [List.getD_eq_getElem?_getD] at h
  cases hn : l[n]? with
  | none => rw [hn] at h; exact absurd h (by simp)
  | some o =>
    rw [hn] at h
    simp only [Option.getD_some] at h
    subst h
    exact List.getElem?_mem hn

theorem mem_filterMap_id_set_some {l : List (Option HNode)} {b : Nat}
    {x c : HNode} (h : c ∈ (l.set b (some x)).filterMap id) :
    c ∈ l.filterMap id ∨ c = x := by
  rw [List.mem_filterMap] at h
  obtain ⟨a, ha, hac⟩ := h
  cases a with
  | none => simp at hac
  | some a0 =>
    simp only [id] at hac
    injection hac with hac
    subst hac
    rcases List.mem_or_eq_of_mem_set ha with hmem | heq
    · exact Or.inl (List.mem_filterMap.mpr ⟨some a0, hmem, rfl⟩)
    · exact Or.inr (by injection heq)

theorem mem_filterMap_id_set_none {l : List (Option HNode)} {b : Nat}
    {c : HNode} (h : c ∈ (l.set b none).filterMap id) :
    c ∈ l.filterMap id := by
  rw [List.mem_filterMap] at h
  obtain ⟨a, ha, hac⟩ := h
  cases a with
  | none => simp at hac
  | some a0 =>
    simp only [id] at hac
    injection hac with hac
    subst hac
    rcases List.mem_or_eq_of_mem_set ha with hmem | heq
    · exact List.mem_filterMap.mpr ⟨some a0, hmem, rfl⟩
    · exact absurd heq (by simp)

/-- Shape invariant used for the hash-trie claims: the root is flagged as
root and every child sitting in one of its slots is a leaf (`Next` and
`Root` both false) with no children of its own.  In-memory states stay
this flat because the leaf-split branch of `Node.add` discards the
replacement interior node it builds (its `return n` is commented out). -/
def FlatRoot (s : HNode) : Prop :=
  s.isRoot = true ∧
    ∀ c ∈ s.bin.filterMap id,
      c.next = false ∧ c.isRoot = false ∧ c.bin.filterMap id = []

theorem flatRoot_empty : FlatRoot emptyRoot := by
  constructor
  · rfl
  · intro c hc
    rw [show emptyRoot.bin = List.replicate 64 none from rfl,
      filterMap_id_replicate_none] at hc
    exact absurd hc (List.not_mem_nil c)

/-- A leaf (neither `Next` nor `Root`) with childless slots stays that
way under `Node.add`: the same-key branch returns it unchanged, the
empty-key branch returns the new leaf, and the split branch only bumps
its level because the built replacement node is discarded. -/
theorem addRec_leaf_leaf (fuel : Nat) (child addnode : HNode)
    (hn : child.next = false) (hr : child.isRoot = false)
    (hb : child.bin.filterMap id = [])
    (han : addnode.next = false) (har : addnode.isRoot = false)
    (hab : addnode.bin.filterMap id = []) :
    (addRec fuel child addnode).next = false ∧
      (addRec fuel child addnode).isRoot = false ∧
      (addRec fuel child addnode).bin.filterMap id = [] := by
  cases fuel with
  | zero => exact ⟨hn, hr, hb⟩
  | succ fuel =>
    cases child with
    | mk key value next root bin level =>
      simp only [HNode.next] at hn
      simp only [HNode.isRoot] at hr
      simp only [HNode.bin] at hb
      subst hn; subst hr
      simp only [addRec, Bool.false_or, if_false, Bool.or_self]
      by_cases hk : key = addnode.key
      · simp only [if_pos hk]
        exact ⟨rfl, rfl, hb⟩
      · simp only [if_neg hk]
        by_cases hl : key.length = 0
        · simp only [if_pos hl]
          exact ⟨han, har, hab⟩
        · simp only [if_neg hl]
          exact ⟨rfl, rfl, hb⟩

/-- `Node.add` on a flat root keeps the root flat. -/
theorem addRec_flatRoot (fuel : Nat) (s addnode : HNode) (hs : FlatRoot s)
    (han : addnode.next = false) (har : addnode.isRoot = false)
    (hab : addnode.bin.filterMap id = []) :
    FlatRoot (addRec fuel s addnode) := by
  cases fuel with
  | zero => exact hs
  | succ fuel =>
    obtain ⟨hsr, hchild⟩ := hs
    cases s with
    | mk key value next root bin level =>
      simp only [HNode.isRoot] at hsr
      subst hsr
      simp only [HNode.bin] at hchild
      simp only [addRec, Bool.or_true, if_true]
      cases hslot : bin.getD (hashbinD (keyhash addnode.key) level) none with
      | some child =>
        simp only [hslot]
        refine ⟨rfl, ?_⟩
        intro c hc
        simp only [HNode.bin] at hc
        rcases mem_filterMap_id_set_some hc with hmem | heq
        · exact hchild c hmem
        · subst heq
          obtain ⟨h1, h2, h3⟩ := hchild child (List.mem_filterMap.mpr
            ⟨some child, getD_none_some_mem hslot, rfl⟩)
          exact addRec_leaf_leaf fuel child addnode h1 h2 h3 han har hab
      | none =>
        simp only [hslot]
        refine ⟨rfl, ?_⟩
        intro c hc
        simp only [HNode.bin] at hc
        rcases mem_filterMap_id_set_some hc with hmem | heq
        · exact hchild c hmem
        · subst heq
          cases addnode with
          | mk ak av an ar ab al =>
            simp only [HNode.next] at han
            simp only [HNode.isRoot] at har
            simp only [HNode.bin] at hab
            exact ⟨han, har, hab⟩

/-- `HashDB.Delete` on a flat root keeps the root flat. -/
theorem hdbDelete_flatRoot (s : HNode) (k : List Nat) (hs : FlatRoot s) :
    FlatRoot (hdbDelete s k) := by
  obtain ⟨hsr, hchild⟩ := hs
  cases s with
  | mk key value next root bin level =>
    simp only [HNode.isRoot] at hsr
    subst hsr
    simp only [HNode.bin] at hchild
    simp only [hdbDelete]
    cases hslot : bin.getD (hashbinD (keyhash k) level) none with
    | none =>
      simp only [hslot]
      exact ⟨rfl, fun c hc => hchild c hc⟩
    | some child =>
      have hleaf := hchild child (List.mem_filterMap.mpr
        ⟨some child, getD_none_some_mem hslot, rfl⟩)
      simp only [hslot, hleaf.1, if_false, Bool.false_eq_true]
      refine ⟨rfl, ?_⟩
      intro c hc
      simp only [HNode.bin] at hc
      exact hchild c (mem_filterMap_id_set_none hc)

/-- All states reachable by `Put` and `Delete` are flat. -/
theorem reachable_flatRoot (s : HNode) (hs : Reachable s) : FlatRoot s := by
  induction hs with
  | empty => exact flatRoot_empty
  | put k v _ ih =>
    exact addRec_flatRoot hFuel _ _ ih rfl rfl
      (by rw [show (newNode k (some v)).bin = List.replicate 64 none from rfl,
        filterMap_id_replicate_none])
  | delete k _ ih => exact hdbDelete_flatRoot _ k ih

/-- The nodes strictly below a given node (children, then recursively
their descendants). -/
def descendants : Nat → HNode → List HNode
  | 0, _ => []
  | fuel + 1, n => (n.bin.filterMap id).flatMap fun c => c :: descendants fuel c

theorem descendants_of_childless (fuel : Nat) (c : HNode)
    (h : c.bin.filterMap id = []) : descendants fuel c = [] := by
  cases fuel with
  | zero => rfl
  | succ fuel => simp [descendants, h]

theorem mem_descendants_succ {fuel : Nat} {s n : HNode}
    (hn : n ∈ descendants (fuel + 1) s) :
    ∃ c ∈ s.bin.filterMap id, n = c ∨ n ∈ descendants fuel c := by
  simp only [descendants, List.mem_flatMap, List.mem_cons] at hn
  exact hn

/-- C3: after `Put("alice", h1); Put("alice", h2)` the trie does hold
exactly one leaf for "alice", but `Get("alice")` still returns `h1`: the
same-key branch of `Node.add` (hashdb.go:213-215) returns the existing
leaf without assigning the new value, so the second put is lost.  This
evaluates the code at the failing input of the C3 divergence. -/
theorem c3_second_put_does_not_overwrite :
    (hdbGet (hdbPut (hdbPut emptyRoot keyAlice [0xAA]) keyAlice [0xBB]) keyAlice).1
        = some [0xAA]
      ∧ leafCount hFuel (hdbPut (hdbPut emptyRoot keyAlice [0xAA]) keyAlice [0xBB]) = 1
      ∧ [0xAA] ≠ [0xBB] := by
  decide

/-- C6 counterexample: the claim quantifies over *every* interior node,
including the root.  The empty trie (reachable by the empty sequence of
operations) has an interior root with zero non-empty slots, and after one
`Put` the root is an interior node with exactly one non-empty child which
is a leaf — both configurations violate the claimed invariant. -/
theorem c6_root_violates_invariant :
    (emptyRoot.next || emptyRoot.isRoot) = true
      ∧ (emptyRoot.bin.filterMap id).length = 0
      ∧ ((hdbPut emptyRoot keyA [0x07]).next || (hdbPut emptyRoot keyA [0x07]).isRoot) = true
      ∧ ((hdbPut emptyRoot keyA [0x07]).bin.filterMap id).length = 1
      ∧ ((hdbPut emptyRoot keyA [0x07]).bin.filterMap id).all (fun c => !c.next) = true := by
  decide

/-- C6 (amended: the two slot conditions hold for every interior node
*other than the root*): in every state reachable from the empty trie by
`Put` and `Delete`, every node strictly below the root is a leaf — the
leaf-split branch of `Node.add` discards the interior node it builds, so
no non-root interior node ever exists in memory — and consequently every
non-root interior node vacuously has at least one non-empty slot and
never exactly one non-empty leaf child. -/
theorem c6_no_degenerate_non_root_interior (s : HNode) (hs : Reachable s) :
    (∀ n ∈ descendants hFuel s, (n.next || n.isRoot) = false)
      ∧ ∀ n ∈ descendants hFuel s, (n.next || n.isRoot) = true →
          1 ≤ (n.bin.filterMap id).length
            ∧ ¬((n.bin.filterMap id).length = 1
                  ∧ ∀ c ∈ n.bin.filterMap id, c.next = false) := by
  obtain ⟨hsr, hchild⟩ := reachable_flatRoot s hs
  have hmem : ∀ n ∈ descendants hFuel s, (n.next || n.isRoot) = false := by
    intro n hn
    rw [show hFuel = 63 + 1 from rfl] at hn
    obtain ⟨c, hc, hnc⟩ := mem_descendants_succ hn
    obtain ⟨h1, h2, h3⟩ := hchild c hc
    rcases hnc with rfl | hnc
    · simp [h1, h2]
    · rw [descendants_of_childless 63 c h3] at hnc
      exact absurd hnc (List.not_mem_nil n)
  refine ⟨hmem, ?_⟩
  intro n hn hint
  rw [hmem n hn] at hint
  exact absurd hint (by simp)

/-- C6 witness: the amended theorem applied to the reachable one-leaf
state; the single node below the root is a leaf, not an interior node. -/
theorem c6_witness :
    ((HNode.mk keyA (some [0x07]) false false (List.replicate 64 none) 1).next
      || (HNode.mk keyA (some [0x07]) false false (List.replicate 64 none) 1).isRoot) = false :=
  (c6_no_degenerate_non_root_interior (hdbPut emptyRoot keyA [0x07])
      (Reachable.put keyA [0x07] Reachable.empty)).1
    (HNode.mk keyA (some [0x07]) false false (List.replicate 64 none) 1)
    (by rw [show descendants hFuel (hdbPut emptyRoot keyA [0x07])
          = [HNode.mk keyA (some [0x07]) false false (List.replicate 64 none) 1] from rfl]
        exact List.mem_singleton.mpr rfl)

/-- C7: `HashDB.Insert` of the absent key "C" into a trie holding only
"A" reports a duplicate-key error, because the digests of "A" and "C"
share their top six bits: `Node.Get` hits the leaf for "A", returns an
error object instead of nil for the key mismatch, and `HashDB.Get` turns
that into `b = true`, which `Insert` reads as "already in database"
(hashdb.go:412-420).  This evaluates the code at the failing input of the
C7 divergence. -/
theorem c7_insert_duplicate_error_on_absent_key :
    insertRejected (hdbInsert (hdbPut emptyRoot keyA [0x07]) keyC [0x08]) = true
      ∧ ¬ keyC ∈ trieKeys hFuel (hdbPut emptyRoot keyA [0x07])
      ∧ keyA ≠ keyC := by
  decide

/-- C10 counterexample: deleting the absent key "C" from a trie holding
only "A" — whose digest shares the root slot with "C" — removes "A"'s
leaf, because the leaf branch of `Node.Delete` nulls the slot without
comparing keys (hashdb.go:455-457).  `Get("A")` then fails although the
claim promises every previously retrievable key is preserved. -/
theorem c10_delete_absent_key_removes_collider :
    ¬ keyC ∈ trieKeys hFuel (hdbPut emptyRoot keyA [0x07])
      ∧ (hdbGet (hdbPut emptyRoot keyA [0x07]) keyA).1 = some [0x07]
      ∧ (hdbGet (hdbDelete (hdbPut emptyRoot keyA [0x07]) keyC) keyA).1 = none := by
  decide

/-- C10 (amended: restricted to the case the descent immediately reaches
an empty slot, i.e. the root slot for `k`'s digest is empty): then
`HashDB.Delete(k)` leaves the trie unchanged and every key still returns
its former value.  When the slot instead holds a leaf of a different key,
that leaf is removed (see the counterexample). -/
theorem c10_delete_empty_slot_is_frame (s : HNode) (k : List Nat)
    (h : s.bin.getD (hashbinD (keyhash k) s.level) none = none) :
    hdbDelete s k = s ∧ ∀ k2, hdbGet (hdbDelete s k) k2 = hdbGet s k2 := by
  cases s with
  | mk key value next root bin level =>
    simp only [HNode.bin, HNode.level] at h
    have hdel : hdbDelete (HNode.mk key value next root bin level) k
        = HNode.mk key value next root bin level := by
      simp only [hdbDelete, h]
    exact ⟨hdel, fun k2 => by rw [hdel]⟩

/-- C10 witness: the amended theorem applied to the empty trie and key
"A" (whose root slot is empty there). -/
theorem c10_witness :
    hdbGet (hdbDelete emptyRoot keyA) keyC = hdbGet emptyRoot keyC :=
  (c10_delete_empty_slot_is_frame emptyRoot keyA rfl).2 keyC

/-! ## btree.go: the copy-on-write B-tree

Translation of `test/btree/btree.go`.  Items are `DBIndex` records; the
Go code orders them by string comparison of `ikey`, which `main` fills
with fixed-width hex renderings of integers, so the order coincides with
the numeric order used here.  Pointer mutation becomes state passing; the
copy-on-write context and free list only recycle allocations and are
elided.  Recursion over the tree carries explicit fuel so that every
function evaluates inside the kernel; each theorem supplies fuel beyond
the depth (or step count) the trace can use, so the fuel-out branches
stay unreachable. -/

/-- DBIndex (btree.go:988-1006): one item, `Less` comparing keys. -/
structure DBIndex where
  ikey : Nat
  ival : Nat
deriving DecidableEq, Repr

def DBIndex.Less (a b : DBIndex) : Bool := a.ikey < b.ikey

def dbDefault : DBIndex := ⟨0, 0⟩

/-- Hash values of the content-addressed chunk model.  Go hashes a node
by streaming the children's hash strings and the items through SHA-256
(btree.go:374-387); here SHA-256 is idealised as an injective encoding of
that stream into a natural number (`Nat.pair`-based), and the empty
hash string of a never-flushed child contributes nothing, exactly as
`h.Write([]byte(""))` writes no bytes. -/
def encodeListN (l : List Nat) : Nat :=
  l.foldr (fun x a => Nat.pair x a + 1) 0

def encodeItem (it : DBIndex) : Nat := Nat.pair it.ikey it.ival

def nodeHash (childHashes : List Nat) (items : List DBIndex) : Nat :=
  Nat.pair (encodeListN childHashes) (encodeListN (items.map encodeItem))

/-- In-memory B-tree node (btree.go:256-265): items, children, the lazy
`notloaded` flag, the `dirty` flag and the current hash (`none` models
Go's empty string). -/
inductive BNode where
  | mk (items : List DBIndex) (children : List BNode)
       (notloaded : Bool) (dirty : Bool) (hashid : Option Nat)

def BNode.items : BNode → List DBIndex
  | .mk i _ _ _ _ => i

def BNode.children : BNode → List BNode
  | .mk _ c _ _ _ => c

def BNode.notloaded : BNode → Bool
  | .mk _ _ n _ _ => n

def BNode.dirty : BNode → Bool
  | .mk _ _ _ d _ => d

def BNode.hashid : BNode → Option Nat
  | .mk _ _ _ _ h => h

/-- btree.go:742-746 `newNode` from the free list: zero-valued fields. -/
def freshBNode : BNode := .mk [] [] false false none

/-- btree.go:159-165 `items.insertAt`. -/
def insertAtL {α : Type} (s : List α) (index : Nat) (a : α) : List α :=
  s.take index ++ a :: s.drop index

/-- btree.go:199-207 `items.find` via `sort.Search`: the index of the
first item greater than the probe (computed linearly here, which against
the tree's sorted items agrees with the binary search), and whether the
probe is already present just before that index. -/
def itemsFind (s : List DBIndex) (key : Nat) : Nat × Bool :=
  let i := (s.takeWhile fun it => ¬ key < it.ikey).length
  if i > 0 ∧ ¬ (s.getD (i - 1) dbDefault).ikey < key then (i - 1, true)
  else (i, false)

/-- btree.go:270-280 `node.split` at index `i`: returns the raised item,
the shrunk left node and the new right sibling (neither marked dirty). -/
def BNode.split : BNode → Nat → DBIndex × BNode × BNode
  | .mk items children nl d h, i =>
    let item := items.getD i dbDefault
    let rightItems := items.drop (i + 1)
    let leftItems := items.take i
    if children.length > 0 then
      (item, .mk leftItems (children.take (i + 1)) nl d h,
        .mk rightItems (children.drop (i + 1)) false false none)
    else
      (item, .mk leftItems [] nl d h, .mk rightItems [] false false none)

/-- btree.go:282-294 `node.maybeSplitChild`: split the `i`-th child when
it holds `maxItems` items, raising the median into this node. -/
def BNode.maybeSplitChild : BNode → Nat → Nat → BNode × Bool
  | .mk items children nl d h, i, maxItems =>
    if (children.getD i freshBNode).items.length < maxItems then
      (.mk items children nl d h, false)
    else
      let first := children.getD i freshBNode
      let fis := first.split (maxItems / 2)
      let item := fis.1
      let first2 := fis.2.1
      let second := fis.2.2
      (.mk (insertAtL items i item)
        (insertAtL (children.set i first2) (i + 1) second) nl true h, true)

/-- Serialized chunk of one node (btree.go:398-410): the children's hash
strings in order (`none` for a never-hashed child, Go's "") and the
items. -/
structure BChunk where
  childHashes : List (Option Nat)
  items : List DBIndex
deriving DecidableEq, Repr

/-- The local chunk store `chunk/<hashid>` as an association list. -/
def storeFind (st : List (Nat × BChunk)) (h : Nat) : Option BChunk :=
  (st.find? fun e => e.1 == h).map fun e => e.2

/-- btree.go:296-337 `node.SWARMGet`: read the chunk named by `hashid`
and append its items and not-yet-loaded child stubs; on any failure
(empty hash, missing file) the node is returned unchanged and stays
not loaded. -/
def BNode.SWARMGet (store : List (Nat × BChunk)) : BNode → BNode
  | .mk items children nl d h =>
    match h with
    | none => .mk items children nl d none
    | some hv =>
      match storeFind store hv with
      | none => .mk items children nl d (some hv)
      | some chunk =>
        .mk (items ++ chunk.items)
          (children ++ chunk.childHashes.map fun ch => BNode.mk [] [] true false ch)
          false d (some hv)

/-- btree.go:420-463 `node.insert`: lazy-load a not-loaded node first
(btree.go:424-428), replace an equal item in place, insert into a leaf,
otherwise split a full child when needed, re-aim using the raised item,
and recurse; the node's `dirty` is assigned the boolean the recursion
returns. -/
def BNode.insertF : Nat → BNode → DBIndex → Nat → List (Nat × BChunk) →
    BNode × Option DBIndex × Bool
  | 0, n, _, _, _ => (n, none, true)
  | fuel + 1, n, item, maxItems, store =>
    let n0 := if n.notloaded then
        let m := n.SWARMGet store
        BNode.mk m.items m.children false m.dirty m.hashid
      else n
    let f := itemsFind n0.items item.ikey
    let i := f.1
    if f.2 then
      (.mk (n0.items.set i item) n0.children n0.notloaded true n0.hashid,
        some (n0.items.getD i dbDefault), true)
    else if n0.children.length = 0 then
      (.mk (insertAtL n0.items i item) n0.children n0.notloaded true n0.hashid, none, true)
    else
      let msc := n0.maybeSplitChild i maxItems
      let n1 := msc.1
      let step : Nat ⊕ Unit :=
        if msc.2 then
          let inTree := (n1.items.getD i dbDefault).ikey
          if item.ikey < inTree then Sum.inl i
          else if inTree < item.ikey then Sum.inl (i + 1)
          else Sum.inr ()
        else Sum.inl i
      match step with
      | Sum.inr _ =>
        (.mk (n1.items.set i item) n1.children n1.notloaded n1.dirty n1.hashid,
          some (n1.items.getD i dbDefault), true)
      | Sum.inl j =>
        let r := BNode.insertF fuel (n1.children.getD j freshBNode) item maxItems store
        (.mk n1.items (n1.children.set j r.1) n1.notloaded r.2.2 n1.hashid,
          r.2.1, r.2.2)

/-- btree.go:465-474 `node.get`: plain search, no lazy loading of
not-loaded nodes (unlike `insert`). -/
def BNode.getF : Nat → BNode → Nat → Option DBIndex
  | 0, _, _ => none
  | fuel + 1, n, key =>
    let f := itemsFind n.items key
    if f.2 then some (n.items.getD f.1 dbDefault)
    else if n.children.length > 0 then
      BNode.getF fuel (n.children.getD f.1 freshBNode) key
    else none

/-- btree.go:706-711 `BTree`: degree, length, optional root. -/
structure BTreeGo where
  degree : Nat
  length : Nat
  root : Option BNode

/-- btree.go:731-734. -/
def BTreeGo.maxItems (t : BTreeGo) : Nat := t.degree * 2 - 1

/-- btree.go:834-842, the pre-descent root split in `ReplaceOrInsert`:
raise the item at `maxItems/2` into a fresh root whose two children are
the truncated old root and the new right sibling. -/
def splitRootForInsert (maxItems : Nat) (root : BNode) : BNode :=
  let s := root.split (maxItems / 2)
  .mk [s.1] [s.2.1, s.2.2] false false none

/-- btree.go:816-850 `BTree.ReplaceOrInsert`. -/
def BTreeGo.ReplaceOrInsert (t : BTreeGo) (item : DBIndex)
    (store : List (Nat × BChunk)) (fuel : Nat) : BTreeGo × Option DBIndex :=
  match t.root with
  | none =>
    ({ t with root := some (.mk [item] [] false true none), length := t.length + 1 }, none)
  | some root =>
    let root1 := if t.maxItems ≤ root.items.length then splitRootForInsert t.maxItems root
      else root
    let r := BNode.insertF fuel root1 item t.maxItems store
    let root2 := r.1
    let root3 := BNode.mk root2.items root2.children root2.notloaded r.2.2 root2.hashid
    (⟨t.degree, if r.2.1 = none then t.length + 1 else t.length, some root3⟩, r.2.1)

/-- btree.go:959-966 `BTree.Get`. -/
def BTreeGo.Get (t : BTreeGo) (key : Nat) (fuel : Nat) : Option DBIndex :=
  match t.root with
  | none => none
  | some r => r.getF fuel key

/-- The Go test `start != nil && n.items[i].Less(start)` is the negation
of this predicate ("the item is at or above `start`"). -/
def startOKB (start : Option Nat) (x : DBIndex) : Bool :=
  match start with | some s => !decide (x.ikey < s) | none => true

/-- The Go test `stop != nil && !n.items[i].Less(stop)` is the negation
of this predicate ("the item is below `stop`"). -/
def stopOKB (stop : Option Nat) (x : DBIndex) : Bool :=
  match stop with | some st => decide (x.ikey < st) | none => true

/-- The Go test `start != nil && !start.Less(n.items[i])` in the
include-start handling. -/
def hitSkipB (start : Option Nat) (x : DBIndex) : Bool :=
  match start with | some s => !decide (s < x.ikey) | none => false

/-- btree.go:632-689 `node.iterate`, ascending direction, instrumented:
the Go loop index `i` is explicit and the returned list records, in
order, every item the visitor was called on.  The descending arm of the
source is not exercised by any claim and is not translated.  Result:
`(visited, hit, ok)`. -/
def iterAscF : Nat → BNode → Nat → Option Nat → Option Nat → Bool → Bool →
    (DBIndex → Bool) → List DBIndex × Bool × Bool
  | 0, _, _, _, _, _, hit, _ => ([], hit, false)
  | fuel + 1, n, i, start, stop, includeStart, hit, iter =>
    if i < n.items.length then
      let x := n.items.getD i dbDefault
      if !startOKB start x then
        iterAscF fuel n (i + 1) start stop includeStart hit iter
      else
        let c := if n.children.length > 0 then
            iterAscF fuel (n.children.getD i freshBNode) 0 start stop includeStart hit iter
          else ([], hit, true)
        if c.2.2 = false then (c.1, c.2.1, false)
        else if (!includeStart) && (!c.2.1) && hitSkipB start x then
          let r := iterAscF fuel n (i + 1) start stop includeStart true iter
          (c.1 ++ r.1, r.2.1, r.2.2)
        else if !stopOKB stop x then
          (c.1, true, false)
        else if iter x = false then
          (c.1 ++ [x], true, false)
        else
          let r := iterAscF fuel n (i + 1) start stop includeStart true iter
          (c.1 ++ x :: r.1, r.2.1, r.2.2)
    else
      if n.children.length > 0 then
        iterAscF fuel (n.children.getD (n.children.length - 1) freshBNode) 0
          start stop includeStart hit iter
      else ([], hit, true)

/-- btree.go:887-894 `BTree.AscendRange`: range `[greaterOrEqual,
lessThan)`, `includeStart = true`, `hit = false`; only the visited items
are observable. -/
def BTreeGo.AscendRange (t : BTreeGo) (greaterOrEqual lessThan : Nat)
    (iter : DBIndex → Bool) (fuel : Nat) : List DBIndex :=
  match t.root with
  | none => []
  | some r => (iterAscF fuel r 0 (some greaterOrEqual) (some lessThan) true false iter).1

/-- btree.go:914-921 `BTree.Ascend`: unbounded scan. -/
def BTreeGo.Ascend (t : BTreeGo) (iter : DBIndex → Bool) (fuel : Nat) : List DBIndex :=
  match t.root with
  | none => []
  | some r => (iterAscF fuel r 0 none none false false iter).1

/-- btree.go:363-418 `node.SWARMPut`: recursively flush dirty children,
recompute this node's hash from the (possibly renewed) child hashes and
the items, and store the chunk exactly when the new hash equals the old
one or there was no old hash — the source's comparison is inverted, and
`dirty` is never cleared.  Returns the updated node, the chunks written,
and the boolean `SWARMPut` returns. -/
def BNode.SWARMPut : Nat → BNode → BNode × List (Nat × BChunk) × Bool
  | 0, n => (n, [], false)
  | fuel + 1, .mk items children nl d oldHash =>
    let flushed := children.map fun c =>
      if c.dirty then
        let r := BNode.SWARMPut fuel c
        (r.1, r.2.1)
      else (c, [])
    let children2 := flushed.map fun p => p.1
    let writes := (flushed.map fun p => p.2).flatten
    let newHash := nodeHash (children2.filterMap BNode.hashid) items
    if oldHash = some newHash ∨ oldHash = none then
      (.mk items children2 nl d (some newHash),
        writes ++ [(newHash, ⟨children2.map BNode.hashid, items⟩)], true)
    else
      (.mk items children2 nl d (some newHash), writes, false)

/-- btree.go:758-769 `BTree.Flush` with btree.go:772-785 `putTableENS`:
store the chunks `SWARMPut` produced and update the registry entry with
the new root hash only when `SWARMPut` returned true.  Result: `(tree,
store, registry, changed)`. -/
def BTreeGo.Flush (t : BTreeGo) (store : List (Nat × BChunk)) (ens : Option Nat)
    (fuel : Nat) : BTreeGo × List (Nat × BChunk) × Option Nat × Bool :=
  match t.root with
  | none => (t, store, ens, false)
  | some root =>
    let r := root.SWARMPut fuel
    if r.2.2 then ({ t with root := some r.1 }, store ++ r.2.1, r.1.hashid, true)
    else ({ t with root := some r.1 }, store ++ r.2.1, ens, false)

/-- btree.go:130-152 `Open` (degree 4) with btree.go:788-806
`getTableENS`: a fresh root; when the registry resolves, its hash is
installed and the chunk loaded eagerly; the root is then marked
`notloaded` unconditionally. -/
def btOpen (store : List (Nat × BChunk)) (ens : Option Nat) : BTreeGo :=
  let root1 := match ens with
    | none => freshBNode
    | some h => BNode.SWARMGet store (.mk [] [] false false (some h))
  ⟨4, 0, some (.mk root1.items root1.children true root1.dirty root1.hashid)⟩

def c5root : BNode :=
  .mk [⟨1, 0⟩, ⟨2, 0⟩, ⟨3, 0⟩, ⟨4, 0⟩, ⟨5, 0⟩, ⟨6, 0⟩, ⟨7, 0⟩] [] false false none

def c5tree : BTreeGo := ⟨4, 7, some c5root⟩

def c1tree0 : BTreeGo := btOpen [] none
def c1t1 : BTreeGo := (c1tree0.ReplaceOrInsert ⟨10, 100⟩ [] 10).1
def c1f1 := c1t1.Flush [] none 10
def c1t2 : BTreeGo := ((c1f1.1).ReplaceOrInsert ⟨20, 200⟩ c1f1.2.1 10).1
def c1f2 := c1t2.Flush c1f1.2.1 c1f1.2.2.1 10
def c1f3 := (c1f1.1).Flush c1f1.2.1 c1f1.2.2.1 10

def c2tree8 : BTreeGo :=
  (List.range 8).foldl (fun t i => (t.ReplaceOrInsert ⟨i + 1, i + 101⟩ [] 20).1) c1tree0
def c2flush := c2tree8.Flush [] none 20
def c2reopened : BTreeGo := btOpen c2flush.2.1 c2flush.2.2.1

/-- C5: for every B-tree whose root holds at least `maxItems` items,
`ReplaceOrInsert` splits the root before descending — the result is
exactly an insert into the pre-split root built by `splitRootForInsert`
— and the split uses item index `maxItems/2` (round down) as the median:
the new root holds that median as its sole item, its left child keeps
the items below the median and its right child the items above it.
Concretely, inserting 8 into a degree-4 tree whose root holds
`{1,...,7}` yields a root with single item 4, left child `{1,2,3}` and
right child `{5,6,7,8}`. -/
theorem c5_full_root_splits_at_median :
    (∀ (t : BTreeGo) (root : BNode) (item : DBIndex) (store : List (Nat × BChunk))
        (fuel : Nat), t.root = some root → t.maxItems ≤ root.items.length →
        ∃ r : BNode × Option DBIndex × Bool,
          r = BNode.insertF fuel (splitRootForInsert t.maxItems root) item t.maxItems store
            ∧ (t.ReplaceOrInsert item store fuel).1.root
                = some (BNode.mk r.1.items r.1.children r.1.notloaded r.2.2 r.1.hashid)
            ∧ (t.ReplaceOrInsert item store fuel).2 = r.2.1)
      ∧ (∀ (root : BNode) (mx : Nat),
          (splitRootForInsert mx root).items = [root.items.getD (mx / 2) dbDefault]
            ∧ (splitRootForInsert mx root).children.map BNode.items
                = [root.items.take (mx / 2), root.items.drop (mx / 2 + 1)])
      ∧ ((c5tree.ReplaceOrInsert ⟨8, 0⟩ [] 10).1.root.map BNode.items = some [⟨4, 0⟩]
          ∧ (c5tree.ReplaceOrInsert ⟨8, 0⟩ [] 10).1.root.map
                (fun r => r.children.map BNode.items)
              = some [[⟨1, 0⟩, ⟨2, 0⟩, ⟨3, 0⟩], [⟨5, 0⟩, ⟨6, 0⟩, ⟨7, 0⟩, ⟨8, 0⟩]]
          ∧ (c5tree.ReplaceOrInsert ⟨8, 0⟩ [] 10).1.root.map
                (fun r => r.children.map fun c => c.children.length)
              = some [0, 0]) := by
  refine ⟨?_, ?_, by decide⟩
  · intro t root item store fuel hroot hfull
    refine ⟨BNode.insertF fuel (splitRootForInsert t.maxItems root) item t.maxItems store,
      rfl, ?_, ?_⟩
    · simp only [BTreeGo.ReplaceOrInsert, hroot, if_pos hfull]
    · simp only [BTreeGo.ReplaceOrInsert, hroot, if_pos hfull]
  · intro root mx
    cases root with
    | mk items children nl d h =>
      constructor
      · by_cases hc : children.length > 0 <;>
          simp [splitRootForInsert, BNode.split, hc, BNode.items]
      · by_cases hc : children.length > 0 <;>
          simp [splitRootForInsert, BNode.split, hc, BNode.items, BNode.children]

/-- C5 witness: the general split statement applied to the concrete
degree-4 tree with full root `{1,...,7}`. -/
theorem c5_witness :
    ∃ r : BNode × Option DBIndex × Bool,
      r = BNode.insertF 10 (splitRootForInsert c5tree.maxItems c5root) ⟨8, 0⟩
            c5tree.maxItems []
        ∧ (c5tree.ReplaceOrInsert ⟨8, 0⟩ [] 10).1.root
            = some (BNode.mk r.1.items r.1.children r.1.notloaded r.2.2 r.1.hashid)
        ∧ (c5tree.ReplaceOrInsert ⟨8, 0⟩ [] 10).2 = r.2.1 :=
  c5_full_root_splits_at_median.1 c5tree c5root ⟨8, 0⟩ [] 10 rfl (by decide)

/-- C1: evaluation of `Flush` at the failing input.  A fresh table gets
one item and is flushed (the first flush passes only because the old
hash is empty); the tree is modified and flushed again: `SWARMPut`'s
change check (btree.go:388) is inverted, so the second flush stores no
chunk, reports no change, and leaves the registry at the old root even
though the root's content hash changed; the `dirty` flag survives every
flush because `SWARMPut` never clears it.  Re-flushing the *unmodified*
tree instead stores a duplicate chunk and reports a change. -/
theorem c1_flush_stores_nothing_for_changed_tree :
    c1f1.2.2.2 = true
      ∧ c1f1.1.root.map BNode.dirty = some true
      ∧ c1t2.root.map BNode.dirty = some true
      ∧ c1f2.2.2.2 = false
      ∧ c1f2.2.1 = c1f1.2.1
      ∧ c1f2.2.2.1 = c1f1.2.2.1
      ∧ c1f2.1.root.map BNode.hashid ≠ some c1f1.2.2.1
      ∧ c1f2.1.root.map BNode.dirty = some true
      ∧ c1f3.2.2.2 = true
      ∧ c1f3.2.1.length = 2 := by
  decide

/-- C2: evaluation at the failing input.  Keys 1..8 are inserted into a
fresh degree-4 table (forcing a root split), the tree is flushed and
reopened from the registry.  `Get(4)` still succeeds because `Open`
loads the root chunk eagerly, but `Get(1)` returns nothing: `node.get`
(btree.go:465-474) never loads a not-loaded child, so the reopened
tree's leaf stubs are traversed empty, and the reopened tree does not
answer the queries the original tree answered. -/
theorem c2_reopened_tree_loses_non_root_keys :
    c2tree8.Get 1 20 = some ⟨1, 101⟩
      ∧ c2flush.2.2.2 = true
      ∧ c2reopened.Get 4 20 = some ⟨4, 104⟩
      ∧ c2reopened.Get 1 20 = none := by
  decide

/-! ## swarmdb.go (dispatcher): `CreateTable`

Translation of `SwarmDB.CreateTable` (swarmdb.go, the unnamed source
file, lines 382-433).  The chunk store (`DBChunkStore`) and the registry
(`ENSSimulation`) live outside src/; modelled from the spec: the store is
content-addressed (`store(bytes) -> hash`, idealised injective hash) and
the registry maps a table name to a root hash with atomic replace. -/

structure GoColumn where
  columnName : List Nat
  primary : Nat
  columnType : Nat
  indexType : Nat

/-- Go `copy(buf[off:], src)`: the slice expression `buf[off:]` panics
(`none`) when `off` exceeds the buffer length; otherwise `src` is written
over `buf` starting at `off`, truncated at the end of `buf` (Go `copy`
itself never panics). -/
def copyAt (buf : List Nat) (off : Nat) (src : List Nat) : Option (List Nat) :=
  if buf.length < off then none
  else some (buf.take off ++ src.take (buf.length - off) ++ buf.drop (off + src.length))

/-- Modelled from the spec: 8-byte little-endian rendering used for the
trailing `bid` / `replication` / `encrypted` descriptor fields
(`FloatToByte` / `IntToByte` are outside src/). -/
def bytes8 (n : Nat) : List Nat :=
  (List.range 8).map fun i => (n >>> (8 * i)) &&& 255

/-- One iteration of CreateTable's column loop: for column `i`, the name
at `2048 + 64i`, the primary flag at `+26`, the column type at `+28` and
the index type at `+30` (each truncated to one byte); the first write
whose offset lands past the 4096-byte buffer panics the whole call. -/
def descStep (ob : Option (List Nat)) (ci : Nat × GoColumn) : Option (List Nat) :=
  (((ob.bind fun b => copyAt b (2048 + ci.1 * 64) ci.2.columnName).bind fun b1 =>
      copyAt b1 (2048 + ci.1 * 64 + 26) [ci.2.primary % 256]).bind fun b2 =>
      copyAt b2 (2048 + ci.1 * 64 + 28) [ci.2.columnType % 256]).bind fun b3 =>
      copyAt b3 (2048 + ci.1 * 64 + 30) [ci.2.indexType % 256]

/-- The descriptor buffer CreateTable builds: the column loop over a
4096-byte buffer, then the trailing fields at 4000/4008/4016 (the
per-column roots are left zero).  `none` is the Go panic: a write past
the end of the buffer, which happens exactly when there are 33 or more
columns (`2048 + 32*64 + 26 = 4122 > 4096`). -/
def descBuf (columns : List GoColumn) (bid replication encrypted : Nat) :
    Option (List Nat) :=
  (columns.enum.foldl descStep (some (List.replicate 4096 0))).bind fun buf0 =>
    (copyAt buf0 4000 (bytes8 bid)).bind fun a1 =>
      (copyAt a1 4008 (bytes8 replication)).bind fun a2 =>
        copyAt a2 4016 (bytes8 encrypted)

/-- Modelled from the spec: registry lookup `getRoot(name)`. -/
def getRoot (ens : List (List Nat × Nat)) (name : List Nat) : Option Nat :=
  (ens.find? fun e => e.1 == name).map fun e => e.2

/-- Modelled from the spec: registry update `putRoot(name, hash)`,
atomic replace. -/
def putRoot (ens : List (List Nat × Nat)) (name : List Nat) (h : Nat) :
    List (List Nat × Nat) :=
  (name, h) :: ens.filter fun e => e.1 != name

structure CTResult where
  store : List (Nat × List Nat)
  ens : List (List Nat × Nat)
  primaryColumnName : List Nat
  ok : Bool

/-- swarmdb.go:382-433 `SwarmDB.CreateTable`: performs *no* schema
validation — more than 30 columns only triggers a `fmt.Printf` and the
loop continues; no check counts primary columns or looks for duplicate
names (`primaryColumnName` simply remembers the last column whose
`Primary` flag is positive) — then stores the descriptor chunk (content
address: the idealised injective `encodeListN`, standing in for the
out-of-repo `DBChunkStore` digest), installs its hash in the registry,
and reopens the table.  `OpenTable` cannot fail here: the chunk just
stored resolves, and its duplicate-primary branch is dead code because
`setprimary` is never set to true (swarmdb.go:445,489-496).  With 33 or
more columns the buffer writes panic — slice bounds out of range —
before anything is stored: that path is `none`. -/
def CreateTable (store : List (Nat × List Nat)) (ens : List (List Nat × Nat))
    (tableName : List Nat) (columns : List GoColumn)
    (bid replication encrypted : Nat) : Option CTResult :=
  match descBuf columns bid replication encrypted with
  | none => none
  | some buf =>
    let h := encodeListN buf
    let primaryName := columns.foldl
      (fun acc col => if 0 < col.primary then col.columnName else acc) []
    some { store := store ++ [(h, buf)]
           ens := putRoot ens tableName h
           primaryColumnName := primaryName
           ok := true }

theorem copyAt_some {buf : List Nat} {off : Nat} (h : off ≤ buf.length)
    (src : List Nat) :
    ∃ out, copyAt buf off src = some out ∧ out.length = buf.length := by
  rw [copyAt, if_neg (by omega)]
  refine ⟨_, rfl, ?_⟩
  simp only [List.length_append, List.length_take, List.length_drop]
  omega

theorem descStep_some {b : List Nat} (hb : b.length = 4096) {k : Nat}
    (hk : k < 32) (col : GoColumn) :
    ∃ b4, descStep (some b) (k, col) = some b4 ∧ b4.length = 4096 := by
  obtain ⟨b1, h1, l1⟩ := copyAt_some (show 2048 + k * 64 ≤ b.length by omega)
    col.columnName
  obtain ⟨b2, h2, l2⟩ := copyAt_some (show 2048 + k * 64 + 26 ≤ b1.length by omega)
    [col.primary % 256]
  obtain ⟨b3, h3, l3⟩ := copyAt_some (show 2048 + k * 64 + 28 ≤ b2.length by omega)
    [col.columnType % 256]
  obtain ⟨b4, h4, l4⟩ := copyAt_some (show 2048 + k * 64 + 30 ≤ b3.length by omega)
    [col.indexType % 256]
  refine ⟨b4, ?_, by omega⟩
  simp only [descStep]
  rw [Option.some_bind, h1, Option.some_bind, h2, Option.some_bind, h3,
    Option.some_bind, h4]

theorem foldl_descStep_none : ∀ (l : List (Nat × GoColumn)),
    l.foldl descStep none = none := by
  intro l
  induction l with
  | nil => rfl
  | cons p l ih =>
    rw [List.foldl_cons, show descStep none p = none from rfl, ih]

theorem descFold_some : ∀ (l : List GoColumn) (k : Nat) (b : List Nat),
    b.length = 4096 → k + l.length ≤ 32 →
    ∃ out, (l.enumFrom k).foldl descStep (some b) = some out
      ∧ out.length = 4096 := by
  intro l
  induction l with
  | nil => intro k b hb _; exact ⟨b, rfl, hb⟩
  | cons col l ih =>
    intro k b hb hk
    simp only [List.length_cons] at hk
    obtain ⟨b4, h4, l4⟩ := descStep_some hb (show k < 32 by omega) col
    rw [show (col :: l).enumFrom k = (k, col) :: l.enumFrom (k + 1) from rfl,
      List.foldl_cons, h4]
    exact ih (k + 1) b4 l4 (by omega)

theorem descFold_none : ∀ (l : List GoColumn) (k : Nat) (b : List Nat),
    b.length = 4096 → k ≤ 32 → 33 ≤ k + l.length →
    (l.enumFrom k).foldl descStep (some b) = none := by
  intro l
  induction l with
  | nil =>
    intro k b _ h1 h2
    simp only [List.length_nil] at h2
    omega
  | cons col l ih =>
    intro k b hb hk33 hge
    simp only [List.length_cons] at hge
    rw [show (col :: l).enumFrom k = (k, col) :: l.enumFrom (k + 1) from rfl,
      List.foldl_cons]
    by_cases hk : k < 32
    · obtain ⟨b4, h4, l4⟩ := descStep_some hb hk col
      rw [h4]
      exact ih (k + 1) b4 l4 (by omega) (by omega)
    · have hk32 : k = 32 := by omega
      subst hk32
      obtain ⟨b1, h1, l1⟩ := copyAt_some (show 2048 + 32 * 64 ≤ b.length by omega)
        col.columnName
      have h2 : copyAt b1 (2048 + 32 * 64 + 26) [col.primary % 256] = none := by
        rw [copyAt, if_pos (by omega)]
      have hstep : descStep (some b) (32, col) = none := by
        simp only [descStep]
        rw [Option.some_bind, h1, Option.some_bind, h2]
        rfl
      rw [hstep, foldl_descStep_none]

theorem createTable_no_validation (store : List (Nat × List Nat))
    (ens : List (List Nat × Nat)) (tableName : List Nat)
    (columns : List GoColumn) (bid replication encrypted : Nat)
    (hlen : columns.length ≤ 32) :
    ∃ buf, buf.length = 4096
      ∧ descBuf columns bid replication encrypted = some buf
      ∧ CreateTable store ens tableName columns bid replication encrypted
          = some { store := store ++ [(encodeListN buf, buf)]
                   ens := putRoot ens tableName (encodeListN buf)
                   primaryColumnName := columns.foldl
                     (fun acc col => if 0 < col.primary then col.columnName else acc) []
                   ok := true } := by
  obtain ⟨buf0, hf, l0⟩ := descFold_some columns 0 (List.replicate 4096 0)
    (by rw [List.length_replicate]) (by omega)
  have hf2 : columns.enum.foldl descStep (some (List.replicate 4096 0))
      = some buf0 := hf
  obtain ⟨a1, h1, l1⟩ := copyAt_some (show 4000 ≤ buf0.length by omega) (bytes8 bid)
  obtain ⟨a2, h2, l2⟩ := copyAt_some (show 4008 ≤ a1.length by omega)
    (bytes8 replication)
  obtain ⟨a3, h3, l3⟩ := copyAt_some (show 4016 ≤ a2.length by omega)
    (bytes8 encrypted)
  have hdesc : descBuf columns bid replication encrypted = some a3 := by
    rw [descBuf, hf2, Option.some_bind, h1, Option.some_bind, h2,
      Option.some_bind, h3]
  refine ⟨a3, by omega, hdesc, ?_⟩
  simp only [CreateTable]
  rw [hdesc]

theorem createTable_panics (store : List (Nat × List Nat))
    (ens : List (List Nat × Nat)) (tableName : List Nat)
    (columns : List GoColumn) (bid replication encrypted : Nat)
    (hlen : 33 ≤ columns.length) :
    CreateTable store ens tableName columns bid replication encrypted = none := by
  have hfold : columns.enum.foldl descStep (some (List.replicate 4096 0)) = none :=
    descFold_none columns 0 (List.replicate 4096 0)
      (by rw [List.length_replicate]) (by omega) (by omega)
  have hdesc : descBuf columns bid replication encrypted = none := by
    rw [descBuf, hfold]
    rfl
  simp only [CreateTable]
  rw [hdesc]

def c8name : List Nat := [0x74]

def c8colNoPrimary : GoColumn := ⟨[0x61], 0, 1, 1⟩

def c8colsTwoPrimary : List GoColumn := [⟨[0x61], 1, 1, 1⟩, ⟨[0x62], 1, 1, 1⟩]

def c8cols31 : List GoColumn := List.replicate 31 ⟨[0x63], 0, 1, 1⟩

/-- C8 counterexample: `CreateTable` succeeds — and writes both the
descriptor chunk and the registry entry — for a schema with zero primary
columns, for one with two primary columns, and for one with 31 columns
of duplicate names; it never returns an invalid-schema error. -/
theorem c8_createTable_accepts_invalid_schemas :
    (∃ r, CreateTable [] [] c8name [c8colNoPrimary] 1 1 0 = some r
        ∧ r.ok = true ∧ r.store.length = 1 ∧ getRoot r.ens c8name ≠ none)
      ∧ (∃ r, CreateTable [] [] c8name c8colsTwoPrimary 1 1 0 = some r
        ∧ r.ok = true ∧ r.store.length = 1)
      ∧ (∃ r, CreateTable [] [] c8name c8cols31 1 1 0 = some r
        ∧ r.ok = true ∧ r.store.length = 1) := by
  refine ⟨?_, ?_, ?_⟩
  · obtain ⟨buf, hb, hdesc, hct⟩ := createTable_no_validation [] [] c8name
      [c8colNoPrimary] 1 1 0 (by decide)
    refine ⟨_, hct, rfl, by simp, ?_⟩
    simp [putRoot, getRoot, List.find?]
  · obtain ⟨buf, hb, hdesc, hct⟩ := createTable_no_validation [] [] c8name
      c8colsTwoPrimary 1 1 0 (by decide)
    exact ⟨_, hct, rfl, by simp⟩
  · obtain ⟨buf, hb, hdesc, hct⟩ := createTable_no_validation [] [] c8name
      c8cols31 1 1 0 (by decide)
    exact ⟨_, hct, rfl, by simp⟩

/-- C8 (amended): `CreateTable` performs no schema validation: for every
column list of at most 32 columns — zero primaries, several primaries,
duplicate names, more than 30 columns (the `columnsMax` check only
prints a warning) — it returns success, stores the descriptor chunk and
installs its hash in the registry, and `primaryColumnName` is simply the
name of the last column whose primary flag is set (empty when none is);
with 33 or more columns the descriptor-buffer writes panic (slice bounds
out of range on the 4096-byte buffer) before anything is stored. -/
theorem c8_createTable_never_rejects :
    (∀ (store : List (Nat × List Nat)) (ens : List (List Nat × Nat))
        (tableName : List Nat) (columns : List GoColumn)
        (bid replication encrypted : Nat), columns.length ≤ 32 →
      ∃ buf, descBuf columns bid replication encrypted = some buf
        ∧ CreateTable store ens tableName columns bid replication encrypted
            = some { store := store ++ [(encodeListN buf, buf)]
                     ens := putRoot ens tableName (encodeListN buf)
                     primaryColumnName := columns.foldl
                       (fun acc col => if 0 < col.primary then col.columnName else acc) []
                     ok := true }
        ∧ getRoot (putRoot ens tableName (encodeListN buf)) tableName
            = some (encodeListN buf))
    ∧ (∀ (store : List (Nat × List Nat)) (ens : List (List Nat × Nat))
        (tableName : List Nat) (columns : List GoColumn)
        (bid replication encrypted : Nat), 33 ≤ columns.length →
      CreateTable store ens tableName columns bid replication encrypted = none) := by
  constructor
  · intro store ens tableName columns bid replication encrypted hlen
    obtain ⟨buf, _, hdesc, hct⟩ := createTable_no_validation store ens tableName
      columns bid replication encrypted hlen
    exact ⟨buf, hdesc, hct, by simp [putRoot, getRoot, List.find?]⟩
  · intro store ens tableName columns bid replication encrypted hlen
    exact createTable_panics store ens tableName columns bid replication encrypted hlen

/-- Both halves of the C8 theorem exercised at concrete inputs: a single
no-primary column is accepted and stored, 33 columns hit the panic. -/
theorem c8_witness :
    (∃ r, CreateTable [] [] c8name [c8colNoPrimary] 1 1 0 = some r ∧ r.ok = true)
      ∧ CreateTable [] [] c8name (List.replicate 33 c8colNoPrimary) 1 1 0 = none := by
  constructor
  · obtain ⟨buf, hdesc, hct, hroot⟩ := c8_createTable_never_rejects.1 [] [] c8name
      [c8colNoPrimary] 1 1 0 (by decide)
    exact ⟨_, hct, rfl⟩
  · exact c8_createTable_never_rejects.2 [] [] c8name
      (List.replicate 33 c8colNoPrimary) 1 1 0 (by decide)


/-! ## C4: correctness of the ascending iterator

Specification-side view of the tree: `toList` flattens a node in order
(child 0, item 0, child 1, ..., last child); `WFB` is the structural
invariant (`len(children) = len(items)+1` for internal nodes, recursively,
and every node loaded); `stopAt` is what "visit until the visitor says
stop" means on a list. -/

/-- In-order interleaving of child lists and items. -/
def glue : List (List DBIndex) → List DBIndex → List DBIndex
  | [], xs => xs
  | c :: _, [] => c
  | c :: cs, x :: xs => c ++ x :: glue cs xs

def toList : BNode → List DBIndex
  | .mk items children _ _ _ =>
    if children.isEmpty then items
    else glue (children.attach.map fun c => toList c.1) items
decreasing_by
  cases c with
  | mk c hc =>
    have := List.sizeOf_lt_of_mem hc
    simp only [BNode.mk.sizeOf_spec]
    omega

/-- Height of a node (0 for a childless node). -/
def heightB : BNode → Nat
  | .mk _ children _ _ _ =>
    if children.isEmpty then 0
    else 1 + (children.attach.map fun c => heightB c.1).foldr max 0
decreasing_by
  cases c with
  | mk c hc =>
    have := List.sizeOf_lt_of_mem hc
    simp only [BNode.mk.sizeOf_spec]
    omega

/-- Fuel needed by `iterAscF` on a subtree: one unit per loop position
plus the worst child. -/
def iterNeed : BNode → Nat
  | .mk items children _ _ _ =>
    items.length + 2 +
      (if children.isEmpty then 0
       else (children.attach.map fun c => iterNeed c.1).foldr max 0)
decreasing_by
  cases c with
  | mk c hc =>
    have := List.sizeOf_lt_of_mem hc
    simp only [BNode.mk.sizeOf_spec]
    omega

/-- Structural well-formedness: internal nodes have one more child than
items, all nodes are loaded, recursively. -/
inductive WFB : BNode → Prop where
  | mk (items : List DBIndex) (children : List BNode) (d : Bool) (h : Option Nat)
      (harity : children = [] ∨ children.length = items.length + 1)
      (hchildren : ∀ c ∈ children, WFB c) :
      WFB (.mk items children false d h)

/-- Everything the visitor is fed once it returns false for an element:
the accepted prefix plus the rejected element. -/
def stopAt (iter : DBIndex → Bool) : List DBIndex → List DBIndex
  | [] => []
  | x :: xs => if iter x then x :: stopAt iter xs else [x]

/-- Membership of an item in the half-open window `[start, stop)`
(an absent bound means unbounded), as the iterator's tests decide it. -/
def inRangeB (start stop : Option Nat) (x : DBIndex) : Bool :=
  startOKB start x && stopOKB stop x

theorem inRangeB_eq (start stop : Option Nat) (x : DBIndex) :
    inRangeB start stop x = (startOKB start x && stopOKB stop x) := rfl

/-- Whether every element of `l` is below the `stop` bound. -/
def underStopB (stop : Option Nat) (l : List DBIndex) : Bool :=
  match stop with
  | none => true
  | some st => l.all fun x => decide (x.ikey < st)

theorem toList_mk (items : List DBIndex) (children : List BNode)
    (nl d : Bool) (h : Option Nat) :
    toList (.mk items children nl d h)
      = if children.isEmpty then items else glue (children.map toList) items := by
  rw [toList]
  congr 1
  simp

theorem heightB_mk (items : List DBIndex) (children : List BNode)
    (nl d : Bool) (h : Option Nat) :
    heightB (.mk items children nl d h)
      = if children.isEmpty then 0
        else 1 + (children.map heightB).foldr max 0 := by
  rw [heightB]
  congr 2
  simp

theorem iterNeed_mk (items : List DBIndex) (children : List BNode)
    (nl d : Bool) (h : Option Nat) :
    iterNeed (.mk items children nl d h)
      = items.length + 2 +
          (if children.isEmpty then 0
           else (children.map iterNeed).foldr max 0) := by
  rw [iterNeed]
  congr 2
  simp

theorem le_foldr_max {l : List Nat} {x : Nat} (hx : x ∈ l) : x ≤ l.foldr max 0 := by
  induction l with
  | nil => exact absurd hx (List.not_mem_nil x)
  | cons a l ih =>
    rcases List.mem_cons.mp hx with rfl | hx2
    · exact Nat.le_max_left _ _
    · exact le_trans (ih hx2) (Nat.le_max_right a _)

theorem iterNeed_lower (n : BNode) : n.items.length + 2 ≤ iterNeed n := by
  cases n with
  | mk items children nl d h =>
    rw [iterNeed_mk]
    simp [BNode.items]

theorem iterNeed_child {items : List DBIndex} {children : List BNode}
    {nl d : Bool} {h : Option Nat} {c : BNode} (hc : c ∈ children) :
    iterNeed c + items.length + 2 ≤ iterNeed (.mk items children nl d h) := by
  rw [iterNeed_mk]
  have hne : children.isEmpty = false := by
    cases children with
    | nil => exact absurd hc (List.not_mem_nil c)
    | cons a l => rfl
  rw [hne]
  have : iterNeed c ≤ (children.map iterNeed).foldr max 0 :=
    le_foldr_max (List.mem_map_of_mem iterNeed hc)
  simp only [Bool.false_eq_true, if_false]
  omega

/-- The in-order elements still ahead of loop position `i`. -/
def remFrom (n : BNode) (i : Nat) : List DBIndex :=
  if n.children.isEmpty then n.items.drop i
  else glue ((n.children.drop i).map toList) (n.items.drop i)

theorem remFrom_zero (n : BNode) : remFrom n 0 = toList n := by
  cases n with
  | mk items children nl d h =>
    rw [remFrom, toList_mk]
    simp [BNode.children, BNode.items]

theorem remFrom_past (n : BNode) (i : Nat) (hch : n.children.isEmpty)
    (_hi : n.items.length ≤ i) : remFrom n i = n.items.drop i := by
  rw [remFrom, if_pos hch]

theorem remFrom_step {items : List DBIndex} {children : List BNode}
    {nl d : Bool} {h : Option Nat} {i : Nat}
    (harity : children.length = items.length + 1) (hi : i < items.length) :
    remFrom (.mk items children nl d h) i
      = toList (children.getD i freshBNode)
          ++ items.getD i dbDefault :: remFrom (.mk items children nl d h) (i + 1) := by
  have hic : i < children.length := by omega
  have hne : children.isEmpty = false := by
    cases children with
    | nil => simp at harity
    | cons a l => rfl
  rw [remFrom, remFrom]
  simp only [BNode.children, BNode.items, hne, Bool.false_eq_true, if_false]
  rw [List.drop_eq_getElem_cons hic, List.drop_eq_getElem_cons hi]
  simp only [List.map_cons, glue]
  rw [List.getD_eq_getElem?_getD, List.getElem?_eq_getElem hic,
    List.getD_eq_getElem?_getD, List.getElem?_eq_getElem hi]
  rfl

theorem remFrom_last {items : List DBIndex} {children : List BNode}
    {nl d : Bool} {h : Option Nat}
    (harity : children.length = items.length + 1) :
    remFrom (.mk items children nl d h) items.length
      = toList (children.getD (children.length - 1) freshBNode) := by
  have hic : items.length < children.length := by omega
  have hne : children.isEmpty = false := by
    cases children with
    | nil => simp at harity
    | cons a l => rfl
  have hdropall : children.drop (items.length + 1) = [] := by
    apply List.drop_eq_nil_of_le
    omega
  rw [remFrom]
  simp only [BNode.children, BNode.items, hne, Bool.false_eq_true, if_false]
  rw [List.drop_eq_getElem_cons hic, hdropall, List.drop_length]
  simp only [List.map_cons, List.map_nil, glue]
  rw [harity, Nat.add_sub_cancel, List.getD_eq_getElem?_getD,
    List.getElem?_eq_getElem hic]
  rfl

theorem stopAt_append (iter : DBIndex → Bool) (a b : List DBIndex) :
    stopAt iter (a ++ b)
      = if a.all iter then a ++ stopAt iter b else stopAt iter a := by
  induction a with
  | nil => simp [stopAt]
  | cons x xs ih =>
    by_cases hx : iter x = true
    · rw [List.cons_append, stopAt, if_pos hx, ih]
      by_cases hall : xs.all iter = true
      · rw [if_pos hall,
          if_pos (show (x :: xs).all iter = true by rw [List.all_cons, hx, hall]; rfl)]
        rfl
      · rw [if_neg hall,
          if_neg (show ¬ (x :: xs).all iter = true by
            rw [List.all_cons, hx, Bool.true_and]; exact hall)]
        rw [stopAt, if_pos hx]
    · rw [List.cons_append, stopAt, if_neg hx,
        if_neg (show ¬ (x :: xs).all iter = true by
          rw [List.all_cons, Bool.and_eq_true]; intro hc; exact hx hc.1)]
      rw [stopAt, if_neg hx]

theorem stopAt_all (iter : DBIndex → Bool) (a : List DBIndex)
    (h : a.all iter = true) : stopAt iter a = a := by
  induction a with
  | nil => rfl
  | cons x xs ih =>
    rw [List.all_cons, Bool.and_eq_true] at h
    rw [stopAt, if_pos h.1, ih h.2]

theorem stopAt_sublist (iter : DBIndex → Bool) (a : List DBIndex) :
    (stopAt iter a).Sublist a := by
  induction a with
  | nil => exact List.Sublist.refl []
  | cons x xs ih =>
    rw [stopAt]
    by_cases hx : iter x = true
    · rw [if_pos hx]
      exact List.Sublist.cons₂ x ih
    · rw [if_neg hx]
      exact List.Sublist.cons₂ x (List.nil_sublist xs)

theorem underStopB_append (stop : Option Nat) (a b : List DBIndex) :
    underStopB stop (a ++ b) = (underStopB stop a && underStopB stop b) := by
  cases stop <;> simp [underStopB, List.all_append]

theorem underStopB_cons (stop : Option Nat) (x : DBIndex) (b : List DBIndex) :
    underStopB stop (x :: b) = (stopOKB stop x && underStopB stop b) := by
  cases stop <;> simp [underStopB, stopOKB, List.all_cons]

theorem underStopB_nil (stop : Option Nat) : underStopB stop [] = true := by
  cases stop <;> rfl

theorem underStopB_of_forall {stop : Option Nat} {l : List DBIndex}
    (h : ∀ y ∈ l, stopOKB stop y = true) : underStopB stop l = true := by
  cases stop with
  | none => rfl
  | some st =>
    simp only [underStopB, List.all_eq_true]
    intro y hy
    simpa [stopOKB] using h y hy

theorem filter_inRange_nil_of_lt_start {start stop : Option Nat} {s : Nat}
    (hs : start = some s) {l : List DBIndex} (h : ∀ y ∈ l, y.ikey < s) :
    l.filter (inRangeB start stop) = [] := by
  rw [List.filter_eq_nil_iff]
  intro y hy
  subst hs
  simp only [inRangeB_eq, startOKB, Bool.and_eq_true, Bool.not_eq_true', decide_eq_false_iff_not]
  intro hcon
  exact absurd (h y hy) (by simpa using hcon.1)

theorem filter_inRange_nil_of_ge_stop {start stop : Option Nat} {st : Nat}
    (hst : stop = some st) {l : List DBIndex} (h : ∀ y ∈ l, ¬ y.ikey < st) :
    l.filter (inRangeB start stop) = [] := by
  rw [List.filter_eq_nil_iff]
  intro y hy
  subst hst
  simp only [inRangeB_eq, stopOKB, Bool.and_eq_true, decide_eq_true_eq]
  intro hcon
  exact absurd hcon.2 (h y hy)

theorem remFrom_leaf_step {items : List DBIndex} {nl d : Bool} {h : Option Nat}
    {i : Nat} (hii : i < items.length) :
    remFrom (.mk items [] nl d h) i
      = items.getD i dbDefault :: remFrom (.mk items [] nl d h) (i + 1) := by
  rw [remFrom, remFrom]
  simp only [BNode.children, BNode.items, List.isEmpty_nil, if_true]
  rw [List.drop_eq_getElem_cons hii, List.getD_eq_getElem?_getD,
    List.getElem?_eq_getElem hii]
  rfl

theorem getD_mem_of_lt {l : List BNode} {i : Nat} {d0 : BNode}
    (h : i < l.length) : l.getD i d0 ∈ l := by
  rw [List.getD_eq_getElem?_getD, List.getElem?_eq_getElem h]
  exact List.getElem?_mem (List.getElem?_eq_getElem h)

theorem all_false_of_mem_not {p : DBIndex → Bool} {l : List DBIndex}
    {y : DBIndex} (hy : y ∈ l) (hpy : p y = false) : l.all p = false := by
  rcases hb : l.all p with _ | _
  · rfl
  · rw [List.all_eq_true] at hb
    rw [hb y hy] at hpy
    exact absurd hpy (by simp)

theorem iterAsc_spec (fuel : Nat) :
    ∀ (n : BNode) (i : Nat) (start stop : Option Nat) (inc hit : Bool)
      (iter : DBIndex → Bool),
    WFB n →
    (remFrom n i).Pairwise (fun a b => a.ikey < b.ikey) →
    (inc = true ∨ start = none) →
    (∀ s st, start = some s → stop = some st → s < st) →
    i ≤ n.items.length →
    iterNeed n ≤ fuel + i →
    (iterAscF fuel n i start stop inc hit iter).1
        = stopAt iter ((remFrom n i).filter (inRangeB start stop))
      ∧ (iterAscF fuel n i start stop inc hit iter).2.2
          = (underStopB stop (remFrom n i)
              && ((remFrom n i).filter (inRangeB start stop)).all iter) := by
  induction fuel with
  | zero =>
    intro n i start stop inc hit iter hwf hsort hinc hcompat hi hfuel
    exact absurd hfuel (by have := iterNeed_lower n; omega)
  | succ fuel IH =>
    intro n i start stop inc hit iter hwf hsort hinc hcompat hi hfuel
    obtain ⟨items, children, d, h, harity, hch⟩ := hwf
    simp only [BNode.items] at hi hfuel ⊢
    have hskipBr : ∀ (b : Bool),
        ((!inc) && b && hitSkipB start (items.getD i dbDefault)) = false := by
      intro b
      rcases hinc with h1 | h1
      · rw [h1]; rfl
      · subst h1; simp [hitSkipB]
    by_cases hii : i < items.length
    · rcases harity with hcNil | hcLen
      · -- childless node, loop position i
        subst hcNil
        rw [remFrom_leaf_step hii] at hsort ⊢
        obtain ⟨hx_lt_rest, hsort_rest⟩ := List.pairwise_cons.mp hsort
        rw [iterAscF]
        simp only [BNode.items, BNode.children, List.length_nil, gt_iff_lt,
          Nat.lt_irrefl, if_false, if_pos hii]
        rcases Or.symm (Bool.eq_false_or_eq_true (startOKB start (items.getD i dbDefault))) with hso | hso
        · -- skip: the item is below start
          rw [if_pos (by rw [hso]; rfl)]
          obtain ⟨s, hs, hxs⟩ :
              ∃ s, start = some s ∧ (items.getD i dbDefault).ikey < s := by
            cases hstart : start with
            | none => rw [hstart] at hso; exact absurd hso (by simp [startOKB])
            | some s =>
              rw [hstart] at hso
              exact ⟨s, rfl, by simpa [startOKB] using hso⟩
          have hIHn := IH (.mk items [] false d h) (i + 1) start stop inc hit iter
            ⟨items, [], d, h, Or.inl rfl, by simp⟩ hsort_rest hinc hcompat
            (by simp only [BNode.items]; omega)
            (by omega)
          have hPx : inRangeB start stop (items.getD i dbDefault) = false := by
            rw [inRangeB_eq, hso]; rfl
          have hstopx : stopOKB stop (items.getD i dbDefault) = true := by
            cases hstop : stop with
            | none => rfl
            | some st =>
              have := hcompat s st hs hstop
              simp only [stopOKB, decide_eq_true_eq]
              omega
          rw [List.filter_cons_of_neg (by rw [hPx]; exact Bool.false_ne_true)]
          refine ⟨hIHn.1, ?_⟩
          rw [hIHn.2, underStopB_cons, hstopx, Bool.true_and]
        · -- not skipped
          rw [if_neg (by rw [hso]; simp)]
          rw [if_neg (by simp)]
          rw [hskipBr]
          rw [if_neg (by simp)]
          have hIHn := IH (.mk items [] false d h) (i + 1) start stop inc true iter
            ⟨items, [], d, h, Or.inl rfl, by simp⟩ hsort_rest hinc hcompat
            (by simp only [BNode.items]; omega)
            (by omega)
          rcases Or.symm (Bool.eq_false_or_eq_true (stopOKB stop (items.getD i dbDefault))) with hsto | hsto
          · -- the item is at or above stop: the scan halts here
            rw [if_pos (by rw [hsto]; rfl)]
            obtain ⟨st, hst, hxst⟩ :
                ∃ st, stop = some st ∧ ¬ (items.getD i dbDefault).ikey < st := by
              cases hstop : stop with
              | none => rw [hstop] at hsto; exact absurd hsto (by simp [stopOKB])
              | some st =>
                rw [hstop] at hsto
                exact ⟨st, rfl, by simpa [stopOKB] using hsto⟩
            have hnil : ((items.getD i dbDefault) :: remFrom (.mk items [] false d h) (i + 1)).filter
                (inRangeB start stop) = [] := by
              apply filter_inRange_nil_of_ge_stop hst
              intro y hy
              rcases List.mem_cons.mp hy with rfl | hy2
              · exact hxst
              · have := hx_lt_rest y hy2
                omega
            rw [hnil]
            refine ⟨rfl, ?_⟩
            rw [underStopB_cons, hsto]
            rfl
          · -- the item is inside the window
            have hPx : inRangeB start stop (items.getD i dbDefault) = true := by
              rw [inRangeB_eq, hso, hsto]; rfl
            rw [if_neg (by rw [hsto]; simp)]
            rw [List.filter_cons_of_pos hPx]
            rcases Or.symm (Bool.eq_false_or_eq_true (iter (items.getD i dbDefault))) with hix | hix
            · rw [if_pos hix]
              constructor
              · rw [stopAt, if_neg (by rw [hix]; simp)]
                rfl
              · have : ((items.getD i dbDefault)
                    :: (remFrom (.mk items [] false d h) (i + 1)).filter
                        (inRangeB start stop)).all iter = false :=
                  all_false_of_mem_not (List.mem_cons_self _ _) hix
                rw [this, Bool.and_false]
            · rw [if_neg (by rw [hix]; simp)]
              constructor
              · rw [hIHn.1, stopAt, if_pos hix]
                rfl
              · rw [hIHn.2, underStopB_cons, hsto, Bool.true_and, List.all_cons, hix,
                  Bool.true_and]
      · -- internal node, loop position i
        have hicl : i < children.length := by omega
        have hCImem : children.getD i freshBNode ∈ children := getD_mem_of_lt hicl
        have hwfCI : WFB (children.getD i freshBNode) := hch _ hCImem
        rw [remFrom_step hcLen hii] at hsort ⊢
        obtain ⟨hsort_ci, hsort_rest2, hcross⟩ := List.pairwise_append.mp hsort
        obtain ⟨hx_lt_rest, hsort_rest⟩ := List.pairwise_cons.mp hsort_rest2
        have hci_lt_x : ∀ y ∈ toList (children.getD i freshBNode),
            y.ikey < (items.getD i dbDefault).ikey :=
          fun y hy => hcross y hy _ (List.mem_cons_self _ _)
        have hfuelCI : iterNeed (children.getD i freshBNode) ≤ fuel := by
          have := @iterNeed_child items children false d h _ hCImem
          omega
        have hIHc := IH (children.getD i freshBNode) 0 start stop inc hit iter hwfCI
          (by rw [remFrom_zero]; exact hsort_ci) hinc hcompat (Nat.zero_le _)
          (by omega)
        rw [remFrom_zero] at hIHc
        have hIHnext := IH (.mk items children false d h) (i + 1) start stop inc true iter
          ⟨items, children, d, h, Or.inr hcLen, hch⟩ hsort_rest hinc hcompat
          (by simp only [BNode.items]; omega)
          (by omega)
        rw [iterAscF]
        simp only [BNode.items, BNode.children, if_pos hii,
          if_pos (show children.length > 0 by omega)]
        rcases Or.symm (Bool.eq_false_or_eq_true (startOKB start (items.getD i dbDefault))) with hso | hso
        · -- skip: child i and item i are both below start
          rw [if_pos (by rw [hso]; rfl)]
          obtain ⟨s, hs, hxs⟩ :
              ∃ s, start = some s ∧ (items.getD i dbDefault).ikey < s := by
            cases hstart : start with
            | none => rw [hstart] at hso; exact absurd hso (by simp [startOKB])
            | some s =>
              rw [hstart] at hso
              exact ⟨s, rfl, by simpa [startOKB] using hso⟩
          have hIHn := IH (.mk items children false d h) (i + 1) start stop inc hit iter
            ⟨items, children, d, h, Or.inr hcLen, hch⟩ hsort_rest hinc hcompat
            (by simp only [BNode.items]; omega)
            (by omega)
          have hPx : inRangeB start stop (items.getD i dbDefault) = false := by
            rw [inRangeB_eq, hso]; rfl
          have hstopx : stopOKB stop (items.getD i dbDefault) = true := by
            cases hstop : stop with
            | none => rfl
            | some st =>
              have := hcompat s st hs hstop
              simp only [stopOKB, decide_eq_true_eq]
              omega
          have hFCInil : (toList (children.getD i freshBNode)).filter
              (inRangeB start stop) = [] := by
            apply filter_inRange_nil_of_lt_start hs
            intro y hy
            have := hci_lt_x y hy
            omega
          have hCIunder : underStopB stop (toList (children.getD i freshBNode)) = true := by
            apply underStopB_of_forall
            intro y hy
            cases hstop : stop with
            | none => rfl
            | some st =>
              have h1 := hci_lt_x y hy
              have h2 := hcompat s st hs (by rw [hstop])
              simp only [stopOKB, decide_eq_true_eq]
              omega
          rw [List.filter_append, hFCInil,
            List.filter_cons_of_neg (by rw [hPx]; exact Bool.false_ne_true),
            List.nil_append]
          refine ⟨hIHn.1, ?_⟩
          rw [hIHn.2, underStopB_append, underStopB_cons, hCIunder, hstopx,
            Bool.true_and, Bool.true_and]
        · -- not skipped: visit child i first
          rw [if_neg (by rw [hso]; simp)]
          rw [hIHc.1, hIHc.2]
          rw [List.filter_append,
            stopAt_append iter ((toList (children.getD i freshBNode)).filter
              (inRangeB start stop))]
          rcases Or.symm (Bool.eq_false_or_eq_true (((toList (children.getD i freshBNode)).filter
              (inRangeB start stop)).all iter)) with hall | hall
          · -- the visitor rejected something inside child i
            rw [if_pos (by rw [hall, Bool.and_false])]
            rw [if_neg (by rw [hall]; simp)]
            refine ⟨rfl, ?_⟩
            rw [underStopB_append, List.all_append, hall]
            simp
          · rcases Or.symm (Bool.eq_false_or_eq_true (underStopB stop (toList (children.getD i freshBNode)))) with hu | hu
            · -- some element of child i is at or above stop
              rw [if_pos (by rw [hall, hu]; rfl)]
              obtain ⟨st, hst, y, hy, hyst⟩ : ∃ st, stop = some st ∧
                  ∃ y ∈ toList (children.getD i freshBNode), ¬ y.ikey < st := by
                cases hstop : stop with
                | none => rw [hstop] at hu; exact absurd hu (by simp [underStopB])
                | some st =>
                  rw [hstop] at hu
                  simp only [underStopB, List.all_eq_false, decide_eq_true_eq] at hu
                  obtain ⟨y, hy, hyst⟩ := hu
                  exact ⟨st, rfl, y, hy, hyst⟩
              have hnil : ((items.getD i dbDefault)
                  :: remFrom (.mk items children false d h) (i + 1)).filter
                    (inRangeB start stop) = [] := by
                apply filter_inRange_nil_of_ge_stop hst
                intro z hz
                have hyx := hci_lt_x y hy
                rcases List.mem_cons.mp hz with rfl | hz2
                · omega
                · have := hx_lt_rest z hz2
                  omega
              rw [hnil, if_pos hall, stopAt]
              constructor
              · rw [List.append_nil, stopAt_all _ _ hall]
              · rw [underStopB_append, hu]
                simp
            · -- child i fully visited and accepted
              rw [if_neg (by rw [hall, hu]; simp)]
              rw [hskipBr]
              rw [if_neg (by simp)]
              rcases Or.symm (Bool.eq_false_or_eq_true (stopOKB stop (items.getD i dbDefault))) with hsto | hsto
              · -- item i is at or above stop: halt
                rw [if_pos (by rw [hsto]; rfl)]
                obtain ⟨st, hst, hxst⟩ :
                    ∃ st, stop = some st ∧ ¬ (items.getD i dbDefault).ikey < st := by
                  cases hstop : stop with
                  | none => rw [hstop] at hsto; exact absurd hsto (by simp [stopOKB])
                  | some st =>
                    rw [hstop] at hsto
                    exact ⟨st, rfl, by simpa [stopOKB] using hsto⟩
                have hnil : ((items.getD i dbDefault)
                    :: remFrom (.mk items children false d h) (i + 1)).filter
                      (inRangeB start stop) = [] := by
                  apply filter_inRange_nil_of_ge_stop hst
                  intro z hz
                  rcases List.mem_cons.mp hz with rfl | hz2
                  · exact hxst
                  · have := hx_lt_rest z hz2
                    omega
                rw [hnil, if_pos hall, stopAt]
                constructor
                · rw [List.append_nil, stopAt_all _ _ hall]
                · rw [underStopB_append, underStopB_cons, hsto]
                  simp
              · -- item i is inside the window
                have hPx : inRangeB start stop (items.getD i dbDefault) = true := by
                  rw [inRangeB_eq, hso, hsto]; rfl
                rw [if_neg (by rw [hsto]; simp)]
                rw [List.filter_cons_of_pos hPx, if_pos hall]
                rcases Or.symm (Bool.eq_false_or_eq_true (iter (items.getD i dbDefault))) with hix | hix
                · rw [if_pos hix]
                  constructor
                  · rw [stopAt, if_neg (by rw [hix]; simp), stopAt_all _ _ hall]
                  · have : ((items.getD i dbDefault)
                        :: (remFrom (.mk items children false d h) (i + 1)).filter
                            (inRangeB start stop)).all iter = false :=
                      all_false_of_mem_not (List.mem_cons_self _ _) hix
                    rw [List.all_append, this]
                    simp
                · rw [if_neg (by rw [hix]; simp)]
                  constructor
                  · rw [hIHnext.1, stopAt, if_pos hix, stopAt_all _ _ hall]
                  · rw [hIHnext.2, underStopB_append, underStopB_cons, hu, hsto,
                      List.all_append, List.all_cons, hix, hall]
                    simp
    · -- the loop is done: i = items.length
      have hieq : i = items.length := by omega
      subst hieq
      rcases harity with hcNil | hcLen
      · subst hcNil
        rw [iterAscF]
        simp only [BNode.items, BNode.children, List.length_nil, gt_iff_lt,
          Nat.lt_irrefl, if_false]
        rw [remFrom_past (.mk items [] false d h) items.length (by rfl) (le_refl _)]
        simp only [BNode.items, List.drop_length]
        exact ⟨rfl, by rw [underStopB_nil]; rfl⟩
      · have hlast : children.getD (children.length - 1) freshBNode ∈ children :=
          getD_mem_of_lt (by omega)
        have hIHc := IH (children.getD (children.length - 1) freshBNode) 0
          start stop inc hit iter (hch _ hlast)
          (by rw [remFrom_zero, ← remFrom_last hcLen]; exact hsort) hinc hcompat
          (Nat.zero_le _)
          (by have := @iterNeed_child items children false d h _ hlast
              omega)
        rw [iterAscF]
        simp only [BNode.items, BNode.children]
        rw [if_neg (by omega), if_pos (show children.length > 0 by omega)]
        rw [remFrom_last hcLen]
        exact ⟨by rw [hIHc.1, remFrom_zero], by rw [hIHc.2, remFrom_zero]⟩

theorem foldr_max_le {l : List Nat} {K : Nat} (h : ∀ x ∈ l, x ≤ K) :
    l.foldr max 0 ≤ K := by
  induction l with
  | nil => exact Nat.zero_le K
  | cons a l ih =>
    simp only [List.foldr_cons, max_le_iff]
    exact ⟨h a (List.mem_cons_self _ _), ih fun x hx => h x (List.mem_cons_of_mem a hx)⟩

theorem heightB_child_succ_le {items : List DBIndex} {children : List BNode}
    {nl d : Bool} {h : Option Nat} {c : BNode} (hc : c ∈ children) :
    heightB c + 1 ≤ heightB (.mk items children nl d h) := by
  rw [heightB_mk]
  have hne : children.isEmpty = false := by
    cases children with
    | nil => exact absurd hc (List.not_mem_nil c)
    | cons a l => rfl
  rw [hne]
  simp only [Bool.false_eq_true, if_false]
  have := le_foldr_max (List.mem_map_of_mem heightB hc)
  omega

theorem glue_length : ∀ (ls : List (List DBIndex)) (xs : List DBIndex),
    ls.length = xs.length + 1 →
    (glue ls xs).length = (ls.map List.length).sum + xs.length := by
  intro ls xs
  induction xs generalizing ls with
  | nil =>
    intro hlen
    match ls, hlen with
    | [c], _ => simp [glue]
  | cons x xs ih =>
    intro hlen
    match ls, hlen with
    | c :: cs, hlen =>
      simp only [glue, List.length_append, List.length_cons, List.map_cons, List.sum_cons]
      rw [ih cs (by simpa using hlen)]
      omega

theorem toList_items_le {items : List DBIndex} {children : List BNode}
    {nl d : Bool} {h : Option Nat}
    (harity : children = [] ∨ children.length = items.length + 1) :
    items.length ≤ (toList (.mk items children nl d h)).length := by
  rw [toList_mk]
  rcases harity with rfl | harity
  · simp
  · have hne : children.isEmpty = false := by
      cases children with
      | nil => simp at harity
      | cons a l => rfl
    rw [hne]
    simp only [Bool.false_eq_true, if_false]
    rw [glue_length _ _ (by simpa using harity)]
    omega

theorem toList_child_le {items : List DBIndex} {children : List BNode}
    {nl d : Bool} {h : Option Nat} {c : BNode}
    (harity : children.length = items.length + 1) (hc : c ∈ children) :
    (toList c).length ≤ (toList (.mk items children nl d h)).length := by
  rw [toList_mk]
  have hne : children.isEmpty = false := by
    cases children with
    | nil => simp at harity
    | cons a l => rfl
  rw [hne]
  simp only [Bool.false_eq_true, if_false]
  rw [glue_length _ _ (by simpa using harity)]
  have hmem : (toList c).length ∈ (children.map toList).map List.length :=
    List.mem_map_of_mem List.length (List.mem_map_of_mem toList hc)
  have := List.single_le_sum (fun (x : Nat) _ => Nat.zero_le x) _ hmem
  omega

theorem iterNeed_le (n : BNode) (hwf : WFB n) :
    iterNeed n ≤ (heightB n + 1) * ((toList n).length + 2) := by
  induction hwf with
  | mk items children d h harity hch IH =>
    rw [iterNeed_mk]
    rcases harity with rfl | harity
    · simp only [List.isEmpty_nil, if_true]
      rw [heightB_mk, toList_mk]
      simp
    · have hne : children.isEmpty = false := by
        cases children with
        | nil => simp at harity
        | cons a l => rfl
      rw [hne]
      simp only [Bool.false_eq_true, if_false]
      have hH : ∀ c ∈ children, heightB c + 1 ≤ heightB (BNode.mk items children false d h) :=
        fun c hc => heightB_child_succ_le hc
      have hmax : (children.map iterNeed).foldr max 0
          ≤ heightB (BNode.mk items children false d h)
            * ((toList (BNode.mk items children false d h)).length + 2) := by
        apply foldr_max_le
        intro x hx
        obtain ⟨c, hc, rfl⟩ := List.mem_map.mp hx
        calc iterNeed c ≤ (heightB c + 1) * ((toList c).length + 2) := IH c hc
          _ ≤ heightB (BNode.mk items children false d h)
                * ((toList (BNode.mk items children false d h)).length + 2) := by
              apply Nat.mul_le_mul (hH c hc)
              have := @toList_child_le items children false d h _ harity hc
              omega
      have hit : items.length ≤ (toList (BNode.mk items children false d h)).length :=
        toList_items_le (Or.inr harity)
      have hpos : 1 ≤ heightB (BNode.mk items children false d h) := by
        cases children with
        | nil => simp at harity
        | cons a l =>
          have := @heightB_child_succ_le items (a :: l) false d h a
            (List.mem_cons_self a l)
          omega
      calc items.length + 2 + (children.map iterNeed).foldr max 0
          ≤ ((toList (BNode.mk items children false d h)).length + 2)
            + heightB (BNode.mk items children false d h)
              * ((toList (BNode.mk items children false d h)).length + 2) := by omega
        _ = (heightB (BNode.mk items children false d h) + 1)
              * ((toList (BNode.mk items children false d h)).length + 2) := by ring

theorem mem_glue_right : ∀ (ls : List (List DBIndex)) (xs : List DBIndex),
    ls.length = xs.length + 1 → ∀ x ∈ xs, x ∈ glue ls xs := by
  intro ls xs
  induction xs generalizing ls with
  | nil => intro _ x hx; exact absurd hx (List.not_mem_nil x)
  | cons y ys ih =>
    intro hlen x hx
    match ls, hlen with
    | c :: cs, hlen =>
      rw [glue, List.mem_append, List.mem_cons]
      rcases List.mem_cons.mp hx with rfl | hx2
      · exact Or.inr (Or.inl rfl)
      · exact Or.inr (Or.inr (ih cs (by simpa using hlen) x hx2))

theorem mem_glue_left : ∀ (ls : List (List DBIndex)) (xs : List DBIndex),
    ls.length = xs.length + 1 → ∀ l ∈ ls, ∀ y ∈ l, y ∈ glue ls xs := by
  intro ls xs
  induction xs generalizing ls with
  | nil =>
    intro hlen l hl y hy
    match ls, hlen with
    | [c], _ =>
      rcases List.mem_cons.mp hl with rfl | hl2
      · exact hy
      · exact absurd hl2 (List.not_mem_nil l)
  | cons x xs ih =>
    intro hlen l hl y hy
    match ls, hlen with
    | c :: cs, hlen =>
      rw [glue, List.mem_append, List.mem_cons]
      rcases List.mem_cons.mp hl with rfl | hl2
      · exact Or.inl hy
      · exact Or.inr (Or.inr (ih cs (by simpa using hlen) l hl2 y hy))

theorem mem_toList_of_mem_items {items : List DBIndex} {children : List BNode}
    {nl d : Bool} {h : Option Nat}
    (harity : children = [] ∨ children.length = items.length + 1)
    {y : DBIndex} (hy : y ∈ items) : y ∈ toList (.mk items children nl d h) := by
  rw [toList_mk]
  rcases harity with rfl | harity
  · simpa using hy
  · have hne : children.isEmpty = false := by
      cases children with
      | nil => simp at harity
      | cons a l => rfl
    rw [hne]
    simp only [Bool.false_eq_true, if_false]
    exact mem_glue_right _ _ (by simpa using harity) y hy

theorem mem_toList_of_mem_child {items : List DBIndex} {children : List BNode}
    {nl d : Bool} {h : Option Nat} {c : BNode}
    (harity : children.length = items.length + 1) (hc : c ∈ children)
    {y : DBIndex} (hy : y ∈ toList c) : y ∈ toList (.mk items children nl d h) := by
  rw [toList_mk]
  have hne : children.isEmpty = false := by
    cases children with
    | nil => simp at harity
    | cons a l => rfl
  rw [hne]
  simp only [Bool.false_eq_true, if_false]
  exact mem_glue_left _ _ (by simpa using harity) (toList c)
    (List.mem_map_of_mem toList hc) y hy

theorem getD_append_length {α : Type} (l : List α) (a : α) (d0 : α) :
    (l ++ [a]).getD l.length d0 = a := by
  rw [List.getD_eq_getElem?_getD, List.getElem?_append_right (le_refl _)]
  simp

theorem getD_map_toList {l : List BNode} {j : Nat} (hj : j < l.length) :
    (l.map toList).getD j [] = toList (l.getD j freshBNode) := by
  rw [List.getD_eq_getElem?_getD, List.getD_eq_getElem?_getD,
    List.getElem?_eq_getElem hj,
    List.getElem?_eq_getElem (show j < (l.map toList).length by simpa using hj)]
  simp

theorem set_getD_self : ∀ (ls : List (List DBIndex)) (k : Nat),
    ls.set k (ls.getD k []) = ls := by
  intro ls
  induction ls with
  | nil => intro k; rfl
  | cons a l ih =>
    intro k
    cases k with
    | zero => rfl
    | succ k =>
      simp only [List.set_cons_succ, List.cons.injEq, true_and]
      exact ih k

theorem glue_set_last_snoc_item : ∀ (ls : List (List DBIndex)) (xs : List DBIndex)
    (c : List DBIndex) (it : DBIndex), ls.length = xs.length + 1 →
    ls.getD xs.length [] = c →
    glue (ls.set xs.length (c ++ [it])) xs = glue ls xs ++ [it] := by
  intro ls xs
  induction xs generalizing ls with
  | nil =>
    intro c it hlen hget
    match ls, hlen with
    | [l0], _ =>
      simp only [List.length_nil, List.getD_cons_zero] at hget
      subst hget
      rfl
  | cons x xs ih =>
    intro c it hlen hget
    match ls, hlen with
    | l0 :: ls2, hlen =>
      simp only [List.length_cons, List.getD_cons_succ] at hget
      simp only [List.length_cons, List.set_cons_succ, glue]
      rw [ih ls2 c it (by simpa using hlen) hget, List.append_assoc]
      rfl

theorem glue_snoc_split : ∀ (ls : List (List DBIndex)) (xs : List DBIndex)
    (a b : List DBIndex) (x : DBIndex), ls.length = xs.length + 1 →
    glue (ls.set xs.length a ++ [b]) (xs ++ [x])
      = glue (ls.set xs.length (a ++ x :: b)) xs := by
  intro ls xs
  induction xs generalizing ls with
  | nil =>
    intro a b x hlen
    match ls, hlen with
    | [l0], _ => rfl
  | cons y ys ih =>
    intro a b x hlen
    match ls, hlen with
    | l0 :: ls2, hlen =>
      simp only [List.length_cons, List.set_cons_succ, List.cons_append, glue,
        List.append_eq]
      rw [ih ls2 a b x (by simpa using hlen)]

theorem glue_split_at : ∀ (m : Nat) (ls : List (List DBIndex)) (xs : List DBIndex),
    ls.length = xs.length + 1 → m < xs.length →
    glue ls xs = glue (ls.take (m + 1)) (xs.take m)
      ++ (xs.getD m dbDefault) :: glue (ls.drop (m + 1)) (xs.drop (m + 1)) := by
  intro m
  induction m with
  | zero =>
    intro ls xs hlen hm
    match ls, xs, hlen, hm with
    | c :: cs, x :: xs2, _, _ =>
      simp [glue]
  | succ m ih =>
    intro ls xs hlen hm
    match ls, xs, hlen, hm with
    | c :: cs, x :: xs2, hlen, hm =>
      simp only [List.take_succ_cons, List.drop_succ_cons, List.getD_cons_succ, glue]
      rw [ih cs xs2 (by simpa using hlen) (by simpa using hm), List.append_assoc]
      rfl

theorem takeWhile_all {p : DBIndex → Bool} : ∀ {l : List DBIndex},
    (∀ y ∈ l, p y = true) → l.takeWhile p = l := by
  intro l
  induction l with
  | nil => intro _; rfl
  | cons a l ih =>
    intro h
    rw [List.takeWhile_cons_of_pos (h a (List.mem_cons_self _ _)),
      ih fun y hy => h y (List.mem_cons_of_mem a hy)]

theorem getD_mem_poly {α : Type} {l : List α} {i : Nat} {d0 : α}
    (h : i < l.length) : l.getD i d0 ∈ l := by
  rw [List.getD_eq_getElem?_getD, List.getElem?_eq_getElem h]
  exact List.getElem?_mem (List.getElem?_eq_getElem h)

theorem itemsFind_max {items : List DBIndex} {key : Nat}
    (hk : ∀ y ∈ items, y.ikey < key) : itemsFind items key = (items.length, false) := by
  have htw : (items.takeWhile fun it => ¬ key < it.ikey) = items :=
    takeWhile_all fun y hy => by
      simp only [decide_eq_true_eq]
      have := hk y hy
      omega
  simp only [itemsFind, htw]
  cases items with
  | nil => rfl
  | cons a l =>
    rw [if_neg]
    intro hcon
    exact hcon.2 (hk _ (getD_mem_poly (by simp)))

theorem split_spec {c : BNode} {m : Nat} (hwf : WFB c) (hm : m < c.items.length) :
    WFB (c.split m).2.1 ∧ WFB (c.split m).2.2
    ∧ toList c = toList (c.split m).2.1 ++ (c.split m).1 :: toList (c.split m).2.2
    ∧ (c.split m).1 = c.items.getD m dbDefault
    ∧ heightB (c.split m).2.1 ≤ heightB c ∧ heightB (c.split m).2.2 ≤ heightB c := by
  obtain ⟨items, children, d, h, harity, hch⟩ := hwf
  simp only [BNode.items] at hm ⊢
  have hdec : items = items.take m ++ items.getD m dbDefault :: items.drop (m + 1) := by
    conv_lhs => rw [← List.take_append_drop m items, List.drop_eq_getElem_cons hm]
    rw [List.getD_eq_getElem?_getD, List.getElem?_eq_getElem hm]
    rfl
  rcases harity with rfl | harity
  · simp only [BNode.split]
    rw [if_neg (show ¬ (List.length ([] : List BNode) > 0) from by simp)]
    refine ⟨⟨_, _, _, _, Or.inl rfl, by simp⟩, ⟨_, _, _, _, Or.inl rfl, by simp⟩,
      ?_, ?_, ?_, ?_⟩
    · rw [toList_mk, toList_mk, toList_mk]
      simpa using hdec
    · rfl
    all_goals rw [heightB_mk, heightB_mk]
  · have hne : children.isEmpty = false := by
      cases children with
      | nil => simp at harity
      | cons a l => rfl
    have hlne : (children.take (m + 1)).isEmpty = false := by
      rw [List.isEmpty_eq_false_iff_exists_mem]
      have : 0 < (children.take (m + 1)).length := by
        rw [List.length_take]
        omega
      exact ⟨_, @getD_mem_poly _ _ _ freshBNode this⟩
    have hrne : (children.drop (m + 1)).isEmpty = false := by
      rw [List.isEmpty_eq_false_iff_exists_mem]
      have : 0 < (children.drop (m + 1)).length := by
        rw [List.length_drop]
        omega
      exact ⟨_, @getD_mem_poly _ _ _ freshBNode this⟩
    simp only [BNode.split]
    rw [if_pos (show List.length children > 0 from by omega)]
    refine ⟨⟨_, _, _, _, Or.inr ?_, fun c' hc' => hch c' (List.take_subset _ _ hc')⟩,
      ⟨_, _, _, _, Or.inr ?_, fun c' hc' => hch c' (List.drop_subset _ _ hc')⟩,
      ?_, rfl, ?_, ?_⟩
    · rw [List.length_take, List.length_take]
      omega
    · rw [List.length_drop, List.length_drop]
      omega
    · rw [toList_mk, toList_mk, toList_mk, hne, hlne, hrne]
      simp only [Bool.false_eq_true, if_false]
      rw [glue_split_at m (children.map toList) items (by simpa using harity) hm,
        List.map_take, List.map_drop]
    · rw [heightB_mk, heightB_mk, hne, hlne]
      simp only [Bool.false_eq_true, if_false]
      have : ((children.take (m + 1)).map heightB).foldr max 0
          ≤ (children.map heightB).foldr max 0 := by
        apply foldr_max_le
        intro x hx
        obtain ⟨c', hc', rfl⟩ := List.mem_map.mp hx
        exact le_foldr_max (List.mem_map_of_mem heightB (List.take_subset _ _ hc'))
      omega
    · rw [heightB_mk, heightB_mk, hne, hrne]
      simp only [Bool.false_eq_true, if_false]
      have : ((children.drop (m + 1)).map heightB).foldr max 0
          ≤ (children.map heightB).foldr max 0 := by
        apply foldr_max_le
        intro x hx
        obtain ⟨c', hc', rfl⟩ := List.mem_map.mp hx
        exact le_foldr_max (List.mem_map_of_mem heightB (List.drop_subset _ _ hc'))
      omega

theorem set_append_length {α : Type} (l : List α) (a b : α) :
    (l ++ [a]).set l.length b = l ++ [b] := by
  induction l with
  | nil => rfl
  | cons x xs ih => simp [ih]

theorem insertF_max : ∀ (fuel : Nat) (n : BNode) (item : DBIndex) (maxItems : Nat)
    (store : List (Nat × BChunk)),
    WFB n → (∀ y ∈ toList n, y.ikey < item.ikey) → heightB n < fuel → 1 ≤ maxItems →
    (BNode.insertF fuel n item maxItems store).2.1 = none
    ∧ (BNode.insertF fuel n item maxItems store).2.2 = true
    ∧ WFB (BNode.insertF fuel n item maxItems store).1
    ∧ toList (BNode.insertF fuel n item maxItems store).1 = toList n ++ [item]
    ∧ heightB (BNode.insertF fuel n item maxItems store).1 ≤ heightB n := by
  intro fuel
  induction fuel with
  | zero => intro n item maxItems store _ _ hfuel _; omega
  | succ fuel IH =>
    intro n item maxItems store hwf hlt hfuel hmx
    obtain ⟨items, children, d, h, harity, hch⟩ := hwf
    have hitems : ∀ y ∈ items, y.ikey < item.ikey := fun y hy =>
      hlt y (mem_toList_of_mem_items harity hy)
    have hfind : itemsFind items item.ikey = (items.length, false) := itemsFind_max hitems
    rw [heightB_mk] at hfuel
    simp only [BNode.insertF, BNode.notloaded, BNode.items, BNode.children,
      BNode.dirty, BNode.hashid, Bool.false_eq_true, if_false, hfind]
    rcases harity with rfl | harity
    · rw [if_pos (show List.length ([] : List BNode) = 0 from rfl)]
      have hins : insertAtL items items.length item = items ++ [item] := by
        rw [insertAtL, List.take_length, List.drop_length]
      simp only [List.isEmpty_nil, if_true] at hfuel
      refine ⟨rfl, rfl, ⟨_, _, _, _, Or.inl rfl, by simp⟩, ?_, ?_⟩
      · rw [toList_mk, toList_mk, hins]
        simp
      · rw [heightB_mk, heightB_mk]
    · have hkc : items.length < children.length := by omega
      have hcne : children.isEmpty = false := by
        cases children with
        | nil => simp at harity
        | cons a l => rfl
      rw [hcne] at hfuel
      simp only [Bool.false_eq_true, if_false] at hfuel
      rw [if_neg (by omega)]
      have hcmem : children.getD items.length freshBNode ∈ children :=
        getD_mem_of_lt hkc
      have hcwf : WFB (children.getD items.length freshBNode) := hch _ hcmem
      have hckeys : ∀ y ∈ toList (children.getD items.length freshBNode),
          y.ikey < item.ikey := fun y hy =>
        hlt y (mem_toList_of_mem_child harity hcmem hy)
      have hchfold : heightB (children.getD items.length freshBNode)
          ≤ (children.map heightB).foldr max 0 :=
        le_foldr_max (List.mem_map_of_mem heightB hcmem)
      by_cases hguard : (children.getD items.length freshBNode).items.length < maxItems
      · -- the last child is not full: no split, straight recursion
        simp only [BNode.maybeSplitChild]
        rw [if_pos hguard]
        simp only [Bool.false_eq_true, if_false]
        obtain ⟨hr1, hr2, hrwf, hrtl, hrh⟩ :=
          IH (children.getD items.length freshBNode) item maxItems store hcwf hckeys
            (by omega) hmx
        generalize hR : BNode.insertF fuel (children.getD items.length freshBNode)
          item maxItems store = R
        rw [hR] at hr1 hr2 hrwf hrtl hrh
        have hsne : (children.set items.length R.1).isEmpty = false := by
          rw [List.isEmpty_eq_false_iff_exists_mem]
          have h0 : 0 < (children.set items.length R.1).length := by
            rw [List.length_set]
            omega
          exact ⟨_, @getD_mem_of_lt _ _ freshBNode h0⟩
        refine ⟨hr1, hr2,
          ⟨_, _, _, _, Or.inr (by rw [List.length_set]; exact harity), ?_⟩, ?_, ?_⟩
        · intro c' hc'
          rcases List.mem_or_eq_of_mem_set hc' with h1 | rfl
          · exact hch c' h1
          · exact hrwf
        · rw [toList_mk, toList_mk, hcne, hsne]
          simp only [Bool.false_eq_true, if_false]
          rw [List.map_set, hrtl,
            glue_set_last_snoc_item (children.map toList) items
              (toList (children.getD items.length freshBNode)) item
              (by simpa using harity) (getD_map_toList hkc)]
        · rw [heightB_mk, heightB_mk, hcne, hsne]
          simp only [Bool.false_eq_true, if_false]
          have hbound : ((children.set items.length R.1).map heightB).foldr max 0
              ≤ (children.map heightB).foldr max 0 := by
            apply foldr_max_le
            intro x hx
            obtain ⟨c', hc', rfl⟩ := List.mem_map.mp hx
            rcases List.mem_or_eq_of_mem_set hc' with h1 | rfl
            · exact le_foldr_max (List.mem_map_of_mem heightB h1)
            · exact le_trans hrh hchfold
          omega
      · -- the last child is full: it is split, then the insert goes right
        simp only [BNode.maybeSplitChild]
        rw [if_neg hguard]
        have hm : maxItems / 2 < (children.getD items.length freshBNode).items.length := by
          have := Nat.div_lt_self (show 0 < maxItems by omega) (show 1 < 2 by omega)
          omega
        obtain ⟨hwfL, hwfR, htlC, hmed, hhL, hhR⟩ := split_spec hcwf hm
        have hmedmem : ((children.getD items.length freshBNode).split (maxItems / 2)).1
            ∈ toList (children.getD items.length freshBNode) := by
          rw [htlC]
          exact List.mem_append_right _ (List.mem_cons_self _ _)
        have hmedlt : ((children.getD items.length freshBNode).split (maxItems / 2)).1.ikey
            < item.ikey := hckeys _ hmedmem
        have hins1 : insertAtL items items.length
            ((children.getD items.length freshBNode).split (maxItems / 2)).1
            = items ++ [((children.getD items.length freshBNode).split (maxItems / 2)).1] := by
          rw [insertAtL, List.take_length, List.drop_length]
        have hlenset : (children.set items.length
            ((children.getD items.length freshBNode).split (maxItems / 2)).2.1).length
            = items.length + 1 := by
          rw [List.length_set]
          exact harity
        have hins2 : insertAtL (children.set items.length
              ((children.getD items.length freshBNode).split (maxItems / 2)).2.1)
              (items.length + 1)
              ((children.getD items.length freshBNode).split (maxItems / 2)).2.2
            = (children.set items.length
                ((children.getD items.length freshBNode).split (maxItems / 2)).2.1)
              ++ [((children.getD items.length freshBNode).split (maxItems / 2)).2.2] := by
          rw [insertAtL, List.take_of_length_le (le_of_eq hlenset),
            List.drop_eq_nil_of_le (le_of_eq hlenset)]
        simp only [BNode.items, BNode.children, BNode.notloaded, BNode.dirty,
          BNode.hashid, hins1, hins2, eq_self_iff_true, if_true]
        rw [getD_append_length]
        rw [if_neg (show ¬ item.ikey
          < ((children.getD items.length freshBNode).split (maxItems / 2)).1.ikey
          from by omega)]
        rw [if_pos hmedlt]
        simp only []
        have hgetd2 : ((children.set items.length
              ((children.getD items.length freshBNode).split (maxItems / 2)).2.1)
            ++ [((children.getD items.length freshBNode).split (maxItems / 2)).2.2]).getD
              (items.length + 1) freshBNode
            = ((children.getD items.length freshBNode).split (maxItems / 2)).2.2 := by
          rw [show items.length + 1 = (children.set items.length
              ((children.getD items.length freshBNode).split (maxItems / 2)).2.1).length
            from hlenset.symm]
          exact getD_append_length _ _ _
        rw [hgetd2]
        have hRkeys : ∀ y ∈ toList
            (((children.getD items.length freshBNode).split (maxItems / 2)).2.2),
            y.ikey < item.ikey := by
          intro y hy
          apply hckeys
          rw [htlC]
          exact List.mem_append_right _ (List.mem_cons_of_mem _ hy)
        obtain ⟨hr1, hr2, hrwf, hrtl, hrh⟩ :=
          IH (((children.getD items.length freshBNode).split (maxItems / 2)).2.2)
            item maxItems store hwfR hRkeys (by omega) hmx
        generalize hR : BNode.insertF fuel
          (((children.getD items.length freshBNode).split (maxItems / 2)).2.2)
          item maxItems store = R
        rw [hR] at hr1 hr2 hrwf hrtl hrh
        have hset2 : ((children.set items.length
              ((children.getD items.length freshBNode).split (maxItems / 2)).2.1)
            ++ [((children.getD items.length freshBNode).split (maxItems / 2)).2.2]).set
              (items.length + 1) R.1
            = (children.set items.length
                ((children.getD items.length freshBNode).split (maxItems / 2)).2.1)
              ++ [R.1] := by
          rw [show items.length + 1 = (children.set items.length
              ((children.getD items.length freshBNode).split (maxItems / 2)).2.1).length
            from hlenset.symm]
          exact set_append_length _ _ _
        rw [hset2]
        have hsne2 : ((children.set items.length
              ((children.getD items.length freshBNode).split (maxItems / 2)).2.1)
            ++ [R.1]).isEmpty = false := by
          rw [List.isEmpty_eq_false_iff_exists_mem]
          exact ⟨R.1, List.mem_append_right _ (List.mem_cons_self _ _)⟩
        refine ⟨hr1, hr2, ⟨_, _, _, _, Or.inr ?_, ?_⟩, ?_, ?_⟩
        · rw [List.length_append, List.length_set, List.length_append]
          simp [harity]
        · intro c' hc'
          rcases List.mem_append.mp hc' with h1 | h1
          · rcases List.mem_or_eq_of_mem_set h1 with h2 | rfl
            · exact hch c' h2
            · exact hwfL
          · rw [List.mem_singleton] at h1
            subst h1
            exact hrwf
        · rw [toList_mk, toList_mk, hcne, hsne2]
          simp only [Bool.false_eq_true, if_false]
          rw [List.map_append, List.map_set, List.map_cons, List.map_nil, hrtl,
            glue_snoc_split (children.map toList) items _ _ _ (by simpa using harity)]
          have hasc : toList (((children.getD items.length freshBNode).split
                (maxItems / 2)).2.1)
              ++ ((children.getD items.length freshBNode).split (maxItems / 2)).1
                :: (toList (((children.getD items.length freshBNode).split
                  (maxItems / 2)).2.2) ++ [item])
            = toList (children.getD items.length freshBNode) ++ [item] := by
            rw [htlC, List.append_assoc, List.cons_append]
          rw [hasc,
            glue_set_last_snoc_item (children.map toList) items
              (toList (children.getD items.length freshBNode)) item
              (by simpa using harity) (getD_map_toList hkc)]
        · rw [heightB_mk, heightB_mk, hcne, hsne2]
          simp only [Bool.false_eq_true, if_false]
          have hbound : (((children.set items.length
                ((children.getD items.length freshBNode).split (maxItems / 2)).2.1)
              ++ [R.1]).map heightB).foldr max 0
              ≤ (children.map heightB).foldr max 0 := by
            apply foldr_max_le
            intro x hx
            obtain ⟨c', hc', rfl⟩ := List.mem_map.mp hx
            rcases List.mem_append.mp hc' with h1 | h1
            · rcases List.mem_or_eq_of_mem_set h1 with h2 | rfl
              · exact le_foldr_max (List.mem_map_of_mem heightB h2)
              · exact le_trans hhL hchfold
            · rw [List.mem_singleton] at h1
              subst h1
              exact le_trans hrh (le_trans hhR hchfold)
          omega
theorem splitRoot_spec {root : BNode} {maxItems : Nat} (hwf : WFB root)
    (hm : maxItems / 2 < root.items.length) :
    WFB (splitRootForInsert maxItems root)
    ∧ toList (splitRootForInsert maxItems root) = toList root
    ∧ heightB (splitRootForInsert maxItems root) ≤ heightB root + 1 := by
  obtain ⟨hwfL, hwfR, htlC, _, hhL, hhR⟩ := split_spec hwf hm
  rw [splitRootForInsert]
  refine ⟨⟨_, _, _, _, Or.inr rfl, ?_⟩, ?_, ?_⟩
  · intro c hc
    rcases List.mem_cons.mp hc with rfl | hc2
    · exact hwfL
    · rcases List.mem_cons.mp hc2 with rfl | hc3
      · exact hwfR
      · exact absurd hc3 (List.not_mem_nil c)
  · rw [toList_mk]
    simp only [List.isEmpty_cons, Bool.false_eq_true, if_false, List.map_cons,
      List.map_nil, glue]
    rw [htlC]
  · rw [heightB_mk]
    simp only [List.isEmpty_cons, Bool.false_eq_true, if_false, List.map_cons,
      List.map_nil, List.foldr_cons, List.foldr_nil]
    omega

theorem WFB_shape {n : BNode} (h : WFB n) :
    ∃ items children d hh, n = BNode.mk items children false d hh
      ∧ (children = [] ∨ children.length = items.length + 1)
      ∧ ∀ c ∈ children, WFB c := by
  cases h with
  | mk items children d hh har hch => exact ⟨items, children, d, hh, rfl, har, hch⟩

theorem ReplaceOrInsert_max {t : BTreeGo} {r : BNode} {item : DBIndex}
    {store : List (Nat × BChunk)} {fuel : Nat}
    (hroot : t.root = some r) (hwf : WFB r)
    (hlt : ∀ y ∈ toList r, y.ikey < item.ikey)
    (hfuel : heightB r + 2 ≤ fuel) (hmx : 1 ≤ t.maxItems) :
    ∃ r', (t.ReplaceOrInsert item store fuel).1.root = some r'
      ∧ WFB r'
      ∧ toList r' = toList r ++ [item]
      ∧ heightB r' ≤ heightB r + 1
      ∧ (t.ReplaceOrInsert item store fuel).1.degree = t.degree := by
  simp only [BTreeGo.ReplaceOrInsert, hroot]
  by_cases hfull : t.maxItems ≤ r.items.length
  · rw [if_pos hfull]
    obtain ⟨hwf1, htl1, hh1⟩ := @splitRoot_spec r t.maxItems hwf
      (by have := Nat.div_lt_self (show 0 < t.maxItems by omega) (show 1 < 2 by omega)
          omega)
    obtain ⟨hr1, hr2, hrwf, hrtl, hrh⟩ := insertF_max fuel (splitRootForInsert t.maxItems r)
      item t.maxItems store hwf1 (by rw [htl1]; exact hlt) (by omega) hmx
    generalize hR : BNode.insertF fuel (splitRootForInsert t.maxItems r)
      item t.maxItems store = R
    rw [hR] at hr1 hr2 hrwf hrtl hrh
    obtain ⟨a, b, dd, e, hshape, harR, hchR⟩ := WFB_shape hrwf
    rw [hshape] at hrtl hrh ⊢
    rw [hr2]
    refine ⟨BNode.mk a b false true e, rfl, ⟨a, b, true, e, harR, hchR⟩, ?_, ?_, trivial⟩
    · have hflag : toList (BNode.mk a b false true e)
          = toList (BNode.mk a b false dd e) := by
        rw [toList_mk, toList_mk]
      rw [hflag, hrtl, htl1]
    · have hflagH : heightB (BNode.mk a b false true e)
          = heightB (BNode.mk a b false dd e) := by
        rw [heightB_mk, heightB_mk]
      rw [hflagH]
      omega
  · rw [if_neg hfull]
    obtain ⟨hr1, hr2, hrwf, hrtl, hrh⟩ := insertF_max fuel r item t.maxItems store
      hwf hlt (by omega) hmx
    generalize hR : BNode.insertF fuel r item t.maxItems store = R
    rw [hR] at hr1 hr2 hrwf hrtl hrh
    obtain ⟨a, b, dd, e, hshape, harR, hchR⟩ := WFB_shape hrwf
    rw [hshape] at hrtl hrh ⊢
    rw [hr2]
    refine ⟨BNode.mk a b false true e, rfl, ⟨a, b, true, e, harR, hchR⟩, ?_, ?_, trivial⟩
    · have hflag : toList (BNode.mk a b false true e)
          = toList (BNode.mk a b false dd e) := by
        rw [toList_mk, toList_mk]
      rw [hflag, hrtl]
    · have hflagH : heightB (BNode.mk a b false true e)
          = heightB (BNode.mk a b false dd e) := by
        rw [heightB_mk, heightB_mk]
      rw [hflagH]
      omega
/-- The swarmdb B-tree test scenario for the scan: keys 0,...,1199 inserted
in order into a freshly opened (degree-4) tree, value 7 each, local store
empty; 2000 units of fuel per insert are ample (the tree height never
exceeds the number of inserts). -/
def c4treeN : Nat → BTreeGo
  | 0 => btOpen [] none
  | j + 1 => ((c4treeN j).ReplaceOrInsert ⟨j, 7⟩ [] 2000).1

def c4tree : BTreeGo := c4treeN 1200

theorem c4_first (f : Nat) :
    ((btOpen [] none).ReplaceOrInsert ⟨0, 7⟩ [] (f + 1)).1
      = ⟨4, 1, some (.mk [⟨0, 7⟩] [] false true none)⟩ := rfl

theorem c4treeN_inv : ∀ j, 1 ≤ j → j ≤ 1200 →
    ∃ r, (c4treeN j).root = some r ∧ WFB r
      ∧ toList r = (List.range j).map (fun i => ⟨i, 7⟩)
      ∧ heightB r ≤ j ∧ (c4treeN j).degree = 4 := by
  intro j
  induction j with
  | zero => intro h; omega
  | succ j IH =>
    intro _ hle
    by_cases hj : j = 0
    · subst hj
      refine ⟨.mk [⟨0, 7⟩] [] false true none, ?_, ⟨_, _, _, _, Or.inl rfl, by simp⟩,
        ?_, ?_, ?_⟩
      · show (((btOpen [] none).ReplaceOrInsert ⟨0, 7⟩ [] 2000).1).root
          = some (.mk [⟨0, 7⟩] [] false true none)
        rw [c4_first 1999]
      · rw [toList_mk]
        decide
      · rw [heightB_mk]
        simp
      · show (((btOpen [] none).ReplaceOrInsert ⟨0, 7⟩ [] 2000).1).degree = 4
        rw [c4_first 1999]
    · obtain ⟨r, hroot, hwf, htl, hh, hdeg⟩ := IH (by omega) (by omega)
      have hmax : (c4treeN j).maxItems = 7 := by rw [BTreeGo.maxItems, hdeg]
      have hkeys : ∀ y ∈ toList r, y.ikey < (⟨j, 7⟩ : DBIndex).ikey := by
        intro y hy
        rw [htl] at hy
        obtain ⟨i, hi, rfl⟩ := List.mem_map.mp hy
        rw [List.mem_range] at hi
        exact hi
      obtain ⟨r', hroot', hwf', htl', hh', hdeg'⟩ :=
        @ReplaceOrInsert_max (c4treeN j) r ⟨j, 7⟩ [] 2000 hroot hwf hkeys
          (by omega) (by omega)
      refine ⟨r', hroot', hwf', ?_, by omega, hdeg'.trans hdeg⟩
      rw [htl', htl, List.range_succ, List.map_append, List.map_cons, List.map_nil]

theorem c4_sorted :
    (((List.range 1200).map fun i => (⟨i, 7⟩ : DBIndex))).Pairwise
      (fun a b => a.ikey < b.ikey) := by
  rw [List.pairwise_map]
  exact (List.pairwise_lt_range 1200).imp fun hab => hab

theorem Ascend_root {t : BTreeGo} {r : BNode} (h : t.root = some r)
    (iter : DBIndex → Bool) (fuel : Nat) :
    t.Ascend iter fuel = (iterAscF fuel r 0 none none false false iter).1 := by
  rw [BTreeGo.Ascend, h]

/-- C4: on a fully loaded well-formed B-tree whose in-order contents are
sorted, `AscendRange(start, stop, visitor)` feeds the visitor exactly the
items with `start ≤ key < stop` in in-order (hence strictly increasing)
sequence, stopping right after the first item the visitor rejects
(`stopAt` keeps the accepted prefix plus that item), and the returned
visit list is strictly increasing; in particular after inserting keys
0,...,1199 into a freshly opened tree an unbounded ascending scan visits
0,1,...,1199 in order. -/
theorem c4_ascend_range_scan :
    (∀ (t : BTreeGo) (r : BNode) (start stop : Nat) (iter : DBIndex → Bool)
        (fuel : Nat),
      t.root = some r → WFB r →
      (toList r).Pairwise (fun a b => a.ikey < b.ikey) →
      start < stop → iterNeed r ≤ fuel →
      t.AscendRange start stop iter fuel
          = stopAt iter ((toList r).filter
              fun x => decide (start ≤ x.ikey) && decide (x.ikey < stop))
        ∧ (t.AscendRange start stop iter fuel).Pairwise (fun a b => a.ikey < b.ikey))
    ∧ c4tree.Ascend (fun _ => true) 2000000
        = (List.range 1200).map (fun i => ⟨i, 7⟩) := by
  constructor
  · intro t r start stop iter fuel hroot hwf hsorted hss hfuel
    have hspec := iterAsc_spec fuel r 0 (some start) (some stop) true false iter hwf
      (by rw [remFrom_zero]; exact hsorted) (Or.inl rfl)
      (by intro s st hs hst
          injection hs with hs
          injection hst with hst
          omega)
      (Nat.zero_le _) (by omega)
    rw [remFrom_zero] at hspec
    have hwindow : ∀ x ∈ toList r, inRangeB (some start) (some stop) x
        = (decide (start ≤ x.ikey) && decide (x.ikey < stop)) := by
      intro x _
      rw [inRangeB_eq]
      simp only [startOKB, stopOKB]
      congr 1
      rw [← decide_not, decide_eq_decide]
      omega
    have hmain : t.AscendRange start stop iter fuel
        = stopAt iter ((toList r).filter
            fun x => decide (start ≤ x.ikey) && decide (x.ikey < stop)) := by
      simp only [BTreeGo.AscendRange, hroot]
      rw [hspec.1, List.filter_congr hwindow]
    refine ⟨hmain, ?_⟩
    rw [hmain]
    exact List.Pairwise.sublist
      ((stopAt_sublist iter _).trans (List.filter_sublist _)) hsorted
  · obtain ⟨r, hroot, hwf, htl, hh, hdeg⟩ := c4treeN_inv 1200 (by omega) (le_refl _)
    have hlen : (toList r).length = 1200 := by
      rw [htl, List.length_map, List.length_range]
    have hneed : iterNeed r ≤ 2000000 := by
      have h1 := iterNeed_le r hwf
      have h2 : (heightB r + 1) * ((toList r).length + 2) ≤ 1201 * 1202 :=
        Nat.mul_le_mul (by omega) (by omega)
      omega
    have hspec := iterAsc_spec 2000000 r 0 none none false false (fun _ => true) hwf
      (by rw [remFrom_zero, htl]; exact c4_sorted) (Or.inr rfl)
      (fun s st hs _ => nomatch hs) (Nat.zero_le _) (by omega)
    rw [remFrom_zero] at hspec
    rw [Ascend_root (show c4tree.root = some r from hroot)]
    have hfilter : (toList r).filter (inRangeB none none) = toList r :=
      List.filter_eq_self.mpr fun x _ => rfl
    rw [hspec.1, hfilter, stopAt_all _ _ (List.all_eq_true.mpr fun x _ => rfl), htl]

theorem c4_witness :
    (BTreeGo.mk 4 3 (some (.mk [⟨1, 10⟩, ⟨2, 20⟩, ⟨3, 30⟩] [] false false none))).AscendRange
      2 5 (fun _ => true) 10 = [⟨2, 20⟩, ⟨3, 30⟩] := by
  have h := (c4_ascend_range_scan.1
    (BTreeGo.mk 4 3 (some (.mk [⟨1, 10⟩, ⟨2, 20⟩, ⟨3, 30⟩] [] false false none)))
    (.mk [⟨1, 10⟩, ⟨2, 20⟩, ⟨3, 30⟩] [] false false none)
    2 5 (fun _ => true) 10 rfl
    ⟨_, _, _, _, Or.inl rfl, by simp⟩
    (by rw [toList_mk]; decide) (by omega)
    (by rw [iterNeed_mk]; simp)).1
  rw [h, toList_mk]
  rfl

end SwarmDB

